import Mathlib

/-!
Verification of the teleport socket package: the generated protobuf codec for
the Header record (Marshal / Unmarshal / skipHeader) and the Packet pool logic
(GetPacket / PutPacket / Reset / loadBody / codec selection).

Bytes are modelled as natural numbers below 256; Go machine integers are
modelled as Nat / Int with explicit reduction modulo 2 ^ 32 or 2 ^ 64 at the
points where the Go code truncates or wraps.
-/

set_option maxHeartbeats 1600000
set_option linter.unusedVariables false

namespace Teleport

/-- Decode-time error outcomes of the generated codec.  The Go code returns
distinct error values (ErrIntOverflowHeader, io.ErrUnexpectedEOF,
ErrInvalidLengthHeader, and several fmt.Errorf values); each gets one
constructor.  `panicEmptySkip` stands for the panic("unreachable") reached by
skipHeader on empty input, and `unreachableSkip` discharges a termination
guard that is proved dead by skipHeader_ok_pos. -/
inductive Err where
  | intOverflow
  | unexpectedEOF
  | invalidLength
  | endGroupNonGroup
  | illegalTag
  | wrongWireType
  | illegalWireType
  | panicEmptySkip
  | unreachableSkip
deriving DecidableEq, Repr

/-- The Header record (source: type Header struct).  The Go field `Type` is
called `Typ` here because `Type` is a Lean keyword; `Seq` is uint64, the three
Int fields are int32, and the two strings are byte lists. -/
structure Header where
  Seq : Nat
  Typ : Int
  Uri : List Nat
  Gzip : Int
  StatusCode : Int
  Status : List Nat
deriving DecidableEq, Repr

/-- The all-zero Header (Go zero value of the struct). -/
def Header.zero : Header := ⟨0, 0, [], 0, 0, []⟩

/-- Source: func (m *Header) Reset() — sets every field back to its zero
value; modelled functionally as returning the zero record. -/
def Header.Reset (_ : Header) : Header := Header.zero

/-- A Header value representable by the Go struct: Seq fits in uint64, the
three int32 fields are in int32 range, and the strings are byte sequences
whose length fits in a (63-bit non-negative) Go int. -/
def Header.Valid (m : Header) : Prop :=
  m.Seq < 2 ^ 64 ∧
  -2 ^ 31 ≤ m.Typ ∧ m.Typ < 2 ^ 31 ∧
  (∀ b ∈ m.Uri, b < 256) ∧ m.Uri.length < 2 ^ 63 ∧
  -2 ^ 31 ≤ m.Gzip ∧ m.Gzip < 2 ^ 31 ∧
  -2 ^ 31 ≤ m.StatusCode ∧ m.StatusCode < 2 ^ 31 ∧
  (∀ b ∈ m.Status, b < 256) ∧ m.Status.length < 2 ^ 63

instance (m : Header) : Decidable m.Valid := by
  unfold Header.Valid
  infer_instance

/-- Source: func encodeVarintHeader — base-128 little-endian varint encoding;
every byte except the last carries the continuation bit 0x80. -/
def encodeVarintHeader (v : Nat) : List Nat :=
  if h : 128 ≤ v then (v % 128 + 128) :: encodeVarintHeader (v / 128) else [v]
decreasing_by exact Nat.div_lt_self (by omega) (by omega)

/-- Source: func sovHeader — the byte length of the varint encoding. -/
def sovHeader (x : Nat) : Nat :=
  if h : x / 128 = 0 then 1 else 1 + sovHeader (x / 128)
decreasing_by exact Nat.div_lt_self (by omega) (by omega)

/-- Go conversion uint64(x) applied to an int32 value: sign extension,
i.e. reduction of the integer modulo 2 ^ 64. -/
def uint64OfInt (t : Int) : Nat := (t % (2 ^ 64 : Int)).toNat

/-- Reading a Nat bit pattern back as a Go int32 (two's complement). -/
def toInt32 (n : Nat) : Int :=
  if n % 2 ^ 32 < 2 ^ 31 then ((n % 2 ^ 32 : Nat) : Int)
  else ((n % 2 ^ 32 : Nat) : Int) - 2 ^ 32

/-- Bytes emitted by MarshalTo for field 1 (Seq, tag 0x8): nothing when the
field is zero. -/
def seg1 (m : Header) : List Nat :=
  if m.Seq ≠ 0 then 8 :: encodeVarintHeader m.Seq else []

/-- Field 2 (Type, tag 0x10); uint64(m.Type) sign-extends. -/
def seg2 (m : Header) : List Nat :=
  if m.Typ ≠ 0 then 16 :: encodeVarintHeader (uint64OfInt m.Typ) else []

/-- Field 3 (Uri, tag 0x1a): varint length then the raw bytes. -/
def seg3 (m : Header) : List Nat :=
  if m.Uri.length > 0 then 26 :: (encodeVarintHeader m.Uri.length ++ m.Uri) else []

/-- Field 4 (Gzip, tag 0x20). -/
def seg4 (m : Header) : List Nat :=
  if m.Gzip ≠ 0 then 32 :: encodeVarintHeader (uint64OfInt m.Gzip) else []

/-- Field 5 (StatusCode, tag 0x28). -/
def seg5 (m : Header) : List Nat :=
  if m.StatusCode ≠ 0 then 40 :: encodeVarintHeader (uint64OfInt m.StatusCode) else []

/-- Field 6 (Status, tag 0x32): varint length then the raw bytes. -/
def seg6 (m : Header) : List Nat :=
  if m.Status.length > 0 then 50 :: (encodeVarintHeader m.Status.length ++ m.Status) else []

/-- Source: func (m *Header) MarshalTo — writes fields 1..6 in order, each
emitted only when it differs from its zero value. -/
def Header.MarshalTo (m : Header) : List Nat :=
  seg1 m ++ seg2 m ++ seg3 m ++ seg4 m ++ seg5 m ++ seg6 m

/-- Source: func (m *Header) Marshal — allocates Size() bytes and delegates
to MarshalTo; functionally it returns exactly the MarshalTo byte stream. -/
def Header.Marshal (m : Header) : List Nat := m.MarshalTo

/-- Source: func (m *Header) Size. -/
def Header.Size (m : Header) : Nat :=
  (if m.Seq ≠ 0 then 1 + sovHeader m.Seq else 0) +
  (if m.Typ ≠ 0 then 1 + sovHeader (uint64OfInt m.Typ) else 0) +
  (if m.Uri.length > 0 then 1 + m.Uri.length + sovHeader m.Uri.length else 0) +
  (if m.Gzip ≠ 0 then 1 + sovHeader (uint64OfInt m.Gzip) else 0) +
  (if m.StatusCode ≠ 0 then 1 + sovHeader (uint64OfInt m.StatusCode) else 0) +
  (if m.Status.length > 0 then 1 + m.Status.length + sovHeader m.Status.length else 0)

/-- The inlined varint-decoding loop that the generated Unmarshal and
skipHeader repeat at every use site: before each byte it first fails with
ErrIntOverflowHeader when the shift has reached 64, then with
io.ErrUnexpectedEOF when the buffer is exhausted; otherwise it ors the low
7 bits of the byte, shifted, into the accumulator and stops on a byte with
the high bit clear.  `M` is the modulus of the accumulating machine type:
2 ^ 64 for uint64 fields and 2 ^ 32 for the int32 fields, where Go's
shift of an int32 silently discards bits at position 32 and above. -/
def readVarintLoop (M : Nat) (data : List Nat) (shift acc : Nat) :
    Except Err (Nat × List Nat) :=
  if 64 ≤ shift then .error .intOverflow
  else
    match data with
    | [] => .error .unexpectedEOF
    | b :: rest =>
      let acc2 := acc ||| (((b % 128) <<< shift) % M)
      if b < 128 then .ok (acc2, rest) else readVarintLoop M rest (shift + 7) acc2

/-- The uint64-accumulating varint loop (tags, Seq, string lengths). -/
def readVarint64 (data : List Nat) (shift acc : Nat) : Except Err (Nat × List Nat) :=
  readVarintLoop (2 ^ 64) data shift acc

/-- The int32-accumulating varint loop (Type, Gzip, StatusCode). -/
def readVarint32 (data : List Nat) (shift acc : Nat) : Except Err (Nat × List Nat) :=
  readVarintLoop (2 ^ 32) data shift acc

theorem readVarintLoop_ok_length {M : Nat} :
    ∀ {data : List Nat} {shift acc v : Nat} {rest : List Nat},
      readVarintLoop M data shift acc = .ok (v, rest) → rest.length < data.length := by
  intro data
  induction data with
  | nil =>
    intro shift acc v rest h
    unfold readVarintLoop at h
    split at h <;> simp_all
  | cons b t ih =>
    intro shift acc v rest h
    unfold readVarintLoop at h
    split at h
    · simp_all
    · simp only at h
      split at h
      · simp only [Except.ok.injEq, Prod.mk.injEq] at h
        obtain ⟨-, rfl⟩ := h
        simp
      · exact Nat.lt_trans (ih h) (by simp)

theorem readVarint64_ok_length {data : List Nat} {shift acc v : Nat} {rest : List Nat}
    (h : readVarint64 data shift acc = .ok (v, rest)) : rest.length < data.length :=
  readVarintLoop_ok_length h

theorem readVarint32_ok_length {data : List Nat} {shift acc v : Nat} {rest : List Nat}
    (h : readVarint32 data shift acc = .ok (v, rest)) : rest.length < data.length :=
  readVarintLoop_ok_length h

mutual

/-- Source: func skipHeader — consumes one tagged field from the front of
`data` and returns the number of bytes it occupies (for wire types 1, 2 and 5
the count is computed without checking that the payload bytes are actually
present; the caller performs the bounds check).  On empty input the Go
function falls through its loop to panic("unreachable"), modelled by the
`panicEmptySkip` outcome; callers always pass a non-empty slice. -/
def skipHeader (data : List Nat) : Except Err Nat :=
  if data.isEmpty then .error .panicEmptySkip
  else
    match h : readVarint64 data 0 0 with
    | .error e => .error e
    | .ok (wire, rest) =>
      if wire % 8 = 0 then
        match readVarint64 rest 0 0 with
        | .error e => .error e
        | .ok (_, rest2) => .ok (data.length - rest2.length)
      else if wire % 8 = 1 then .ok ((data.length - rest.length) + 8)
      else if wire % 8 = 2 then
        match readVarint64 rest 0 0 with
        | .error e => .error e
        | .ok (len, rest2) =>
          if 2 ^ 63 ≤ len then .error .invalidLength
          else .ok ((data.length - rest2.length) + len)
      else if wire % 8 = 3 then
        match skipGroup rest with
        | .error e => .error e
        | .ok n => .ok ((data.length - rest.length) + n)
      else if wire % 8 = 4 then .ok (data.length - rest.length)
      else if wire % 8 = 5 then .ok ((data.length - rest.length) + 4)
      else .error .illegalWireType
termination_by (data.length, 0)
decreasing_by
  exact Prod.Lex.left _ _ (readVarint64_ok_length h)

/-- The inner loop of skipHeader's wire-type-3 (start group) case: reads tag
varints until one with wire type 4 (end group) appears, recursively skipping
each non-end field via skipHeader starting at the position before its tag.
Returns the number of bytes consumed from `data` (which starts just after the
enclosing group's start tag).  The `next = 0` guard only discharges
termination; skipHeader_ok_pos proves it dead. -/
def skipGroup (data : List Nat) : Except Err Nat :=
  match h : readVarint64 data 0 0 with
  | .error e => .error e
  | .ok (innerWire, rest) =>
    if innerWire % 8 = 4 then .ok (data.length - rest.length)
    else
      match skipHeader data with
      | .error e => .error e
      | .ok next =>
        if hz : next = 0 then .error .unreachableSkip
        else
          match skipGroup (data.drop next) with
          | .error e => .error e
          | .ok k => .ok (next + k)
termination_by (data.length, 1)
decreasing_by
  · exact Prod.Lex.right _ (by omega)
  · have hlen : rest.length < data.length := readVarint64_ok_length h
    exact Prod.Lex.left _ _ (by simp only [List.length_drop]; omega)

end

/-- Every successful skipHeader consumes at least the tag byte. -/
theorem skipHeader_ok_pos {data : List Nat} {n : Nat}
    (h : skipHeader data = .ok n) : 1 ≤ n := by
  rw [skipHeader] at h
  split at h
  · exact absurd h (by simp)
  · rename_i hne
    split at h
    · exact absurd h (by simp)
    · rename_i wire rest hv
      have hlt : rest.length < data.length := readVarint64_ok_length hv
      split at h
      · split at h
        · exact absurd h (by simp)
        · rename_i v2 rest2 hv2
          have hlt2 : rest2.length < rest.length := readVarint64_ok_length hv2
          simp only [Except.ok.injEq] at h
          omega
      · split at h
        · simp only [Except.ok.injEq] at h
          omega
        · split at h
          · split at h
            · exact absurd h (by simp)
            · rename_i v2 rest2 hv2
              have hlt2 : rest2.length < rest.length := readVarint64_ok_length hv2
              split at h
              · exact absurd h (by simp)
              · simp only [Except.ok.injEq] at h
                omega
          · split at h
            · split at h
              · exact absurd h (by simp)
              · simp only [Except.ok.injEq] at h
                omega
            · split at h
              · simp only [Except.ok.injEq] at h
                omega
              · split at h
                · simp only [Except.ok.injEq] at h
                  omega
                · exact absurd h (by simp)

/-- Source: the main loop of func (m *Header) Unmarshal — repeatedly reads a
tag varint, checks wire type 4 and non-positive (int32-truncated) field
numbers, dispatches field numbers 1..6 to the matching field decoder and all
other field numbers through skipHeader with a bounds check.  `m` is the
Header being filled in; absent fields keep their value in `m`. -/
def unmarshalLoop (m : Header) (data : List Nat) : Except Err Header :=
  match hd : data with
  | [] => .ok m
  | _ :: _ =>
    match h1 : readVarint64 data 0 0 with
    | .error e => .error e
    | .ok (wire, rest) =>
      if wire % 8 = 4 then .error .endGroupNonGroup
      else if toInt32 ((wire >>> 3) % 2 ^ 32) ≤ 0 then .error .illegalTag
      else if toInt32 ((wire >>> 3) % 2 ^ 32) = 1 then
        if wire % 8 ≠ 0 then .error .wrongWireType
        else
          match hv : readVarint64 rest 0 0 with
          | .error e => .error e
          | .ok (v, rest2) => unmarshalLoop { m with Seq := v } rest2
      else if toInt32 ((wire >>> 3) % 2 ^ 32) = 2 then
        if wire % 8 ≠ 0 then .error .wrongWireType
        else
          match hv : readVarint32 rest 0 0 with
          | .error e => .error e
          | .ok (v, rest2) => unmarshalLoop { m with Typ := toInt32 v } rest2
      else if toInt32 ((wire >>> 3) % 2 ^ 32) = 3 then
        if wire % 8 ≠ 2 then .error .wrongWireType
        else
          match hv : readVarint64 rest 0 0 with
          | .error e => .error e
          | .ok (len, rest2) =>
            if 2 ^ 63 ≤ len then .error .invalidLength
            else if rest2.length < len then .error .unexpectedEOF
            else unmarshalLoop { m with Uri := rest2.take len } (rest2.drop len)
      else if toInt32 ((wire >>> 3) % 2 ^ 32) = 4 then
        if wire % 8 ≠ 0 then .error .wrongWireType
        else
          match hv : readVarint32 rest 0 0 with
          | .error e => .error e
          | .ok (v, rest2) => unmarshalLoop { m with Gzip := toInt32 v } rest2
      else if toInt32 ((wire >>> 3) % 2 ^ 32) = 5 then
        if wire % 8 ≠ 0 then .error .wrongWireType
        else
          match hv : readVarint32 rest 0 0 with
          | .error e => .error e
          | .ok (v, rest2) => unmarshalLoop { m with StatusCode := toInt32 v } rest2
      else if toInt32 ((wire >>> 3) % 2 ^ 32) = 6 then
        if wire % 8 ≠ 2 then .error .wrongWireType
        else
          match hv : readVarint64 rest 0 0 with
          | .error e => .error e
          | .ok (len, rest2) =>
            if 2 ^ 63 ≤ len then .error .invalidLength
            else if rest2.length < len then .error .unexpectedEOF
            else unmarshalLoop { m with Status := rest2.take len } (rest2.drop len)
      else
        match h2 : skipHeader data with
        | .error e => .error e
        | .ok skippy =>
          if data.length < skippy then .error .unexpectedEOF
          else unmarshalLoop m (data.drop skippy)
termination_by data.length
decreasing_by
  all_goals subst hd
  · exact Nat.lt_trans (readVarint64_ok_length hv) (readVarint64_ok_length h1)
  · exact Nat.lt_trans (readVarint32_ok_length hv) (readVarint64_ok_length h1)
  · have := readVarint64_ok_length h1
    have := readVarint64_ok_length hv
    simp only [List.length_drop]
    omega
  · exact Nat.lt_trans (readVarint32_ok_length hv) (readVarint64_ok_length h1)
  · exact Nat.lt_trans (readVarint32_ok_length hv) (readVarint64_ok_length h1)
  · have := readVarint64_ok_length h1
    have := readVarint64_ok_length hv
    simp only [List.length_drop]
    omega
  · have := skipHeader_ok_pos h2
    have := readVarint64_ok_length h1
    simp only [List.length_drop]
    omega

/-- Source: func (m *Header) Unmarshal.  Takes the Header being decoded into
(callers pass a freshly reset Header) and the byte stream. -/
def Header.Unmarshal (m : Header) (data : List Nat) : Except Err Header :=
  unmarshalLoop m data

theorem encodeVarintHeader_ne_nil (v : Nat) : encodeVarintHeader v ≠ [] := by
  rw [encodeVarintHeader]
  split <;> simp

theorem encodeVarintHeader_length_le :
    ∀ v k : Nat, 1 ≤ k → v < 2 ^ (7 * k) → (encodeVarintHeader v).length ≤ k := by
  intro v
  induction v using Nat.strong_induction_on with
  | _ v ih =>
    intro k hk hv
    rw [encodeVarintHeader]
    split
    · rename_i h128
      have hk2 : 2 ≤ k := by
        by_contra hlt
        interval_cases k
        simp [Nat.pow_succ] at hv
        omega
      have hdiv : v / 128 < 2 ^ (7 * (k - 1)) := by
        apply Nat.div_lt_of_lt_mul
        calc v < 2 ^ (7 * k) := hv
        _ = 2 ^ (7 * (k - 1)) * 128 := by
            rw [show (128 : Nat) = 2 ^ 7 from rfl, ← pow_add]
            congr 1
            omega
        _ ≤ 128 * 2 ^ (7 * (k - 1)) := by ring_nf; omega
      have := ih (v / 128) (Nat.div_lt_self (by omega) (by omega)) (k - 1) (by omega) hdiv
      simp only [List.length_cons]
      omega
    · simp only [List.length_singleton]
      omega

theorem encodeVarintHeader_split (v : Nat) :
    ∃ init last, encodeVarintHeader v = init ++ [last] ∧
      (∀ b ∈ init, 128 ≤ b) ∧ last < 128 := by
  induction v using Nat.strong_induction_on with
  | _ v ih =>
    rw [encodeVarintHeader]
    split
    · rename_i h128
      obtain ⟨init, last, heq, hinit, hlast⟩ :=
        ih (v / 128) (Nat.div_lt_self (by omega) (by omega))
      refine ⟨(v % 128 + 128) :: init, last, by simp [heq], ?_, hlast⟩
      intro b hb
      rcases List.mem_cons.mp hb with rfl | hb
      · omega
      · exact hinit b hb
    · exact ⟨[], v, rfl, by simp, by omega⟩

/-- Decoding a buffer that consists only of continuation bytes, with enough
shift budget left, exhausts the buffer and fails with unexpected EOF. -/
theorem readVarintLoop_all_cont {M : Nat} :
    ∀ {p : List Nat} {shift acc : Nat}, (∀ b ∈ p, 128 ≤ b) →
      shift + 7 * p.length < 64 →
      readVarintLoop M p shift acc = .error .unexpectedEOF := by
  intro p
  induction p with
  | nil =>
    intro shift acc hall hsh
    rw [readVarintLoop]
    simp only [List.length_nil] at hsh
    rw [if_neg (by omega)]
  | cons b t ih =>
    intro shift acc hall hsh
    rw [readVarintLoop]
    simp only [List.length_cons] at hsh
    rw [if_neg (by omega)]
    simp only
    rw [if_neg (by have := hall b (by simp); omega)]
    exact ih (fun x hx => hall x (by simp [hx])) (by omega)

/-- Bit-level step identity: accumulating the low 7 bits at `shift` and the
remaining bits at `shift + 7` is the same as accumulating the whole value at
`shift`, under any power-of-two truncation. -/
theorem lor_step (w v shift : Nat) :
    (((v % 128) <<< shift) % 2 ^ w) ||| (((v / 128) <<< (shift + 7)) % 2 ^ w) =
      (v <<< shift) % 2 ^ w := by
  have hdiv : v / 128 = v >>> 7 := (Nat.shiftRight_eq_div_pow v 7).symm
  have hmod : v % 128 = v % 2 ^ 7 := rfl
  rw [hdiv, hmod]
  apply Nat.eq_of_testBit_eq
  intro i
  simp only [Nat.testBit_lor, Nat.testBit_mod_two_pow, Nat.testBit_shiftLeft,
    Nat.testBit_shiftRight]
  by_cases hw : i < w
  · by_cases hs : shift ≤ i
    · by_cases hs7 : shift + 7 ≤ i
      · have e1 : ¬ (i - shift < 7) := by omega
        have e2 : 7 + (i - (shift + 7)) = i - shift := by omega
        simp [hw, hs, hs7, e1, e2]
      · have e1 : i - shift < 7 := by omega
        simp [hw, hs, hs7, e1]
    · simp [hs]
      intro _ h7
      exact absurd h7 (by omega)
  · simp [hw]

/-- Decoding an encoded varint (followed by anything) succeeds, consumes
exactly the encoding, and ors the value — shifted and truncated to the
accumulator width — into the accumulator. -/
theorem readVarintLoop_encode (w : Nat) :
    ∀ (v : Nat) (rest : List Nat) (shift acc : Nat),
      shift + 7 * ((encodeVarintHeader v).length - 1) < 64 →
      readVarintLoop (2 ^ w) (encodeVarintHeader v ++ rest) shift acc =
        .ok (acc ||| ((v <<< shift) % 2 ^ w), rest) := by
  intro v
  induction v using Nat.strong_induction_on with
  | _ v ih =>
    intro rest shift acc hsh
    by_cases h128 : 128 ≤ v
    · have henc : encodeVarintHeader v = (v % 128 + 128) :: encodeVarintHeader (v / 128) := by
        rw [encodeVarintHeader]
        rw [dif_pos h128]
      rw [henc]
      rw [henc] at hsh
      simp only [List.length_cons] at hsh
      have hlen : 1 ≤ (encodeVarintHeader (v / 128)).length :=
        List.length_pos.mpr (encodeVarintHeader_ne_nil _)
      simp only [List.cons_append]
      rw [readVarintLoop]
      rw [if_neg (by omega)]
      simp only
      rw [if_neg (by omega)]
      have hb : (v % 128 + 128) % 128 = v % 128 := by omega
      rw [hb]
      rw [ih (v / 128) (Nat.div_lt_self (by omega) (by omega)) rest (shift + 7) _ (by omega)]
      rw [Nat.lor_assoc, lor_step]
    · have henc : encodeVarintHeader v = [v] := by
        rw [encodeVarintHeader]
        rw [dif_neg h128]
      rw [henc]
      rw [henc] at hsh
      simp only [List.length_singleton] at hsh
      simp only [List.cons_append, List.nil_append]
      rw [readVarintLoop]
      rw [if_neg (by omega)]
      simp only
      rw [if_pos (by omega)]
      have hb : v % 128 = v := by omega
      rw [hb]

/-- The entry-point form: at shift 0 with a zero accumulator, decoding the
encoding of `v` yields `v` reduced modulo the accumulator width. -/
theorem readVarintLoop_encode_zero (w v : Nat) (rest : List Nat) (hv : v < 2 ^ 64) :
    readVarintLoop (2 ^ w) (encodeVarintHeader v ++ rest) 0 0 =
      .ok (v % 2 ^ w, rest) := by
  have hlen : (encodeVarintHeader v).length ≤ 10 :=
    encodeVarintHeader_length_le v 10 (by omega) (lt_of_lt_of_le hv (by norm_num))
  rw [readVarintLoop_encode w v rest 0 0 (by omega)]
  simp

theorem readVarint64_encode (v : Nat) (rest : List Nat) (hv : v < 2 ^ 64) :
    readVarint64 (encodeVarintHeader v ++ rest) 0 0 = .ok (v, rest) := by
  rw [readVarint64, readVarintLoop_encode_zero 64 v rest hv, Nat.mod_eq_of_lt hv]

theorem readVarint32_encode (v : Nat) (rest : List Nat) (hv : v < 2 ^ 64) :
    readVarint32 (encodeVarintHeader v ++ rest) 0 0 = .ok (v % 2 ^ 32, rest) := by
  rw [readVarint32, readVarintLoop_encode_zero 32 v rest hv]

/-- Decoding a single byte below 128 yields that byte (used for the tag
bytes 8, 16, 26, 32, 40, 50 emitted by MarshalTo). -/
theorem readVarint64_single (b : Nat) (rest : List Nat) (hb : b < 128) :
    readVarint64 (b :: rest) 0 0 = .ok (b, rest) := by
  have h : (b :: rest) = encodeVarintHeader b ++ rest := by
    rw [encodeVarintHeader, dif_neg (by omega)]
    simp
  rw [h]
  exact readVarint64_encode b rest (by omega)

theorem uint64OfInt_lt (t : Int) : uint64OfInt t < 2 ^ 64 := by
  unfold uint64OfInt
  have h1 : t % (2 ^ 64 : Int) < 2 ^ 64 := Int.emod_lt_of_pos t (by norm_num)
  omega

theorem toInt32_uint64OfInt {t : Int} (h1 : -2 ^ 31 ≤ t) (h2 : t < 2 ^ 31) :
    toInt32 (uint64OfInt t % 2 ^ 32) = t := by
  unfold toInt32 uint64OfInt
  have hmod : t % (2 ^ 64 : Int) = if 0 ≤ t then t else t + 2 ^ 64 := by
    split <;> omega
  split at hmod <;> rw [hmod] <;> split <;> push_cast <;> omega

theorem toInt32_small {n : Nat} (h : n < 2 ^ 31) : toInt32 n = (n : Int) := by
  unfold toInt32
  rw [Nat.mod_eq_of_lt (by omega)]
  rw [if_pos (by omega)]

/-- Tag dispatch values for the six fields. -/
theorem toInt32_tag8 : toInt32 ((8 >>> 3) % 2 ^ 32) = 1 := by decide

theorem toInt32_tag16 : toInt32 ((16 >>> 3) % 2 ^ 32) = 2 := by decide

theorem toInt32_tag26 : toInt32 ((26 >>> 3) % 2 ^ 32) = 3 := by decide

theorem toInt32_tag32 : toInt32 ((32 >>> 3) % 2 ^ 32) = 4 := by decide

theorem toInt32_tag40 : toInt32 ((40 >>> 3) % 2 ^ 32) = 5 := by decide

theorem toInt32_tag50 : toInt32 ((50 >>> 3) % 2 ^ 32) = 6 := by decide



theorem step_seg1 (hh m : Header) (X : List Nat) (hv : hh.Seq < 2 ^ 64) :
    unmarshalLoop m (seg1 hh ++ X) =
      unmarshalLoop (if hh.Seq = 0 then m else { m with Seq := hh.Seq }) X := by
  by_cases hz : hh.Seq = 0
  · simp [seg1, hz]
  · rw [if_neg hz]
    rw [show seg1 hh ++ X = 8 :: (encodeVarintHeader hh.Seq ++ X) by simp [seg1, hz]]
    rw [unmarshalLoop]
    rw [readVarint64_single 8 _ (by omega)]
    simp only [toInt32_tag8]
    norm_num
    rw [readVarint64_encode hh.Seq X hv]

theorem step_seg2 (hh m : Header) (X : List Nat) (h1 : -2 ^ 31 ≤ hh.Typ) (h2 : hh.Typ < 2 ^ 31) :
    unmarshalLoop m (seg2 hh ++ X) =
      unmarshalLoop (if hh.Typ = 0 then m else { m with Typ := hh.Typ }) X := by
  by_cases hz : hh.Typ = 0
  · simp [seg2, hz]
  · rw [if_neg hz]
    rw [show seg2 hh ++ X = 16 :: (encodeVarintHeader (uint64OfInt hh.Typ) ++ X) by
      simp [seg2, hz]]
    rw [unmarshalLoop]
    rw [readVarint64_single 16 _ (by omega)]
    simp only [toInt32_tag16]
    norm_num
    rw [readVarint32_encode _ X (uint64OfInt_lt _)]
    show unmarshalLoop { m with Typ := toInt32 (uint64OfInt hh.Typ % 2 ^ 32) } X = _
    rw [toInt32_uint64OfInt h1 h2]

theorem step_seg3 (hh m : Header) (X : List Nat) (hlen : hh.Uri.length < 2 ^ 63) :
    unmarshalLoop m (seg3 hh ++ X) =
      unmarshalLoop (if hh.Uri = [] then m else { m with Uri := hh.Uri }) X := by
  by_cases hz : hh.Uri = []
  · simp [seg3, hz]
  · rw [if_neg hz]
    have hpos : hh.Uri.length > 0 := List.length_pos.mpr hz
    rw [show seg3 hh ++ X = 26 :: (encodeVarintHeader hh.Uri.length ++ (hh.Uri ++ X)) by
      simp [seg3, hpos]]
    rw [unmarshalLoop]
    rw [readVarint64_single 26 _ (by omega)]
    simp only [toInt32_tag26]
    norm_num
    rw [readVarint64_encode _ _ (by omega)]
    have hle : ¬ 2 ^ 63 ≤ hh.Uri.length := by omega
    have hlt : ¬ (hh.Uri ++ X).length < hh.Uri.length := by
      simp [List.length_append]
    simp only [hle, hlt, if_false]
    rw [List.take_left, List.drop_left]
    rw [if_neg (by omega)]

theorem step_seg4 (hh m : Header) (X : List Nat) (h1 : -2 ^ 31 ≤ hh.Gzip) (h2 : hh.Gzip < 2 ^ 31) :
    unmarshalLoop m (seg4 hh ++ X) =
      unmarshalLoop (if hh.Gzip = 0 then m else { m with Gzip := hh.Gzip }) X := by
  by_cases hz : hh.Gzip = 0
  · simp [seg4, hz]
  · rw [if_neg hz]
    rw [show seg4 hh ++ X = 32 :: (encodeVarintHeader (uint64OfInt hh.Gzip) ++ X) by
      simp [seg4, hz]]
    rw [unmarshalLoop]
    rw [readVarint64_single 32 _ (by omega)]
    simp only [toInt32_tag32]
    norm_num
    rw [readVarint32_encode _ X (uint64OfInt_lt _)]
    show unmarshalLoop { m with Gzip := toInt32 (uint64OfInt hh.Gzip % 2 ^ 32) } X = _
    rw [toInt32_uint64OfInt h1 h2]

theorem step_seg5 (hh m : Header) (X : List Nat) (h1 : -2 ^ 31 ≤ hh.StatusCode)
    (h2 : hh.StatusCode < 2 ^ 31) :
    unmarshalLoop m (seg5 hh ++ X) =
      unmarshalLoop (if hh.StatusCode = 0 then m else { m with StatusCode := hh.StatusCode }) X := by
  by_cases hz : hh.StatusCode = 0
  · simp [seg5, hz]
  · rw [if_neg hz]
    rw [show seg5 hh ++ X = 40 :: (encodeVarintHeader (uint64OfInt hh.StatusCode) ++ X) by
      simp [seg5, hz]]
    rw [unmarshalLoop]
    rw [readVarint64_single 40 _ (by omega)]
    simp only [toInt32_tag40]
    norm_num
    rw [readVarint32_encode _ X (uint64OfInt_lt _)]
    show unmarshalLoop { m with StatusCode := toInt32 (uint64OfInt hh.StatusCode % 2 ^ 32) } X = _
    rw [toInt32_uint64OfInt h1 h2]

theorem step_seg6 (hh m : Header) (X : List Nat) (hlen : hh.Status.length < 2 ^ 63) :
    unmarshalLoop m (seg6 hh ++ X) =
      unmarshalLoop (if hh.Status = [] then m else { m with Status := hh.Status }) X := by
  by_cases hz : hh.Status = []
  · simp [seg6, hz]
  · rw [if_neg hz]
    have hpos : hh.Status.length > 0 := List.length_pos.mpr hz
    rw [show seg6 hh ++ X = 50 :: (encodeVarintHeader hh.Status.length ++ (hh.Status ++ X)) by
      simp [seg6, hpos]]
    rw [unmarshalLoop]
    rw [readVarint64_single 50 _ (by omega)]
    simp only [toInt32_tag50]
    norm_num
    rw [readVarint64_encode _ _ (by omega)]
    have hle : ¬ 2 ^ 63 ≤ hh.Status.length := by omega
    have hlt : ¬ (hh.Status ++ X).length < hh.Status.length := by
      simp [List.length_append]
    simp only [hle, hlt, if_false]
    rw [List.take_left, List.drop_left]
    rw [if_neg (by omega)]

theorem unmarshalLoop_nil (m : Header) : unmarshalLoop m [] = .ok m := by
  rw [unmarshalLoop]

/-- The Header agreeing with `h` on fields 1..k and zero elsewhere. -/
def trunc (h : Header) (k : Nat) : Header :=
  match k with
  | 0 => ⟨0, 0, [], 0, 0, []⟩
  | 1 => ⟨h.Seq, 0, [], 0, 0, []⟩
  | 2 => ⟨h.Seq, h.Typ, [], 0, 0, []⟩
  | 3 => ⟨h.Seq, h.Typ, h.Uri, 0, 0, []⟩
  | 4 => ⟨h.Seq, h.Typ, h.Uri, h.Gzip, 0, []⟩
  | 5 => ⟨h.Seq, h.Typ, h.Uri, h.Gzip, h.StatusCode, []⟩
  | _ + 6 => h

/-- The bytes of Marshal h up to the boundary after field `k`. -/
def cutAt (h : Header) (k : Nat) : List Nat :=
  match k with
  | 0 => []
  | 1 => seg1 h
  | 2 => seg1 h ++ seg2 h
  | 3 => seg1 h ++ seg2 h ++ seg3 h
  | 4 => seg1 h ++ seg2 h ++ seg3 h ++ seg4 h
  | 5 => seg1 h ++ seg2 h ++ seg3 h ++ seg4 h ++ seg5 h
  | _ + 6 => seg1 h ++ seg2 h ++ seg3 h ++ seg4 h ++ seg5 h ++ seg6 h

/-- The bytes of Marshal h after the boundary after field `k`. -/
def restAt (h : Header) (k : Nat) : List Nat :=
  match k with
  | 0 => seg1 h ++ seg2 h ++ seg3 h ++ seg4 h ++ seg5 h ++ seg6 h
  | 1 => seg2 h ++ seg3 h ++ seg4 h ++ seg5 h ++ seg6 h
  | 2 => seg3 h ++ seg4 h ++ seg5 h ++ seg6 h
  | 3 => seg4 h ++ seg5 h ++ seg6 h
  | 4 => seg5 h ++ seg6 h
  | 5 => seg6 h
  | _ + 6 => []

theorem upd1 (h : Header) :
    (if h.Seq = 0 then trunc h 0 else { trunc h 0 with Seq := h.Seq }) = trunc h 1 := by
  obtain ⟨s, t, u, g, c, st⟩ := h
  by_cases hz : s = 0 <;> simp_all [trunc, Header.zero]

theorem upd2 (h : Header) :
    (if h.Typ = 0 then trunc h 1 else { trunc h 1 with Typ := h.Typ }) = trunc h 2 := by
  obtain ⟨s, t, u, g, c, st⟩ := h
  by_cases hz : t = 0 <;> simp_all [trunc, Header.zero]

theorem upd3 (h : Header) :
    (if h.Uri = [] then trunc h 2 else { trunc h 2 with Uri := h.Uri }) = trunc h 3 := by
  obtain ⟨s, t, u, g, c, st⟩ := h
  by_cases hz : u = [] <;> simp_all [trunc, Header.zero]

theorem upd4 (h : Header) :
    (if h.Gzip = 0 then trunc h 3 else { trunc h 3 with Gzip := h.Gzip }) = trunc h 4 := by
  obtain ⟨s, t, u, g, c, st⟩ := h
  by_cases hz : g = 0 <;> simp_all [trunc, Header.zero]

theorem upd5 (h : Header) :
    (if h.StatusCode = 0 then trunc h 4 else { trunc h 4 with StatusCode := h.StatusCode }) =
      trunc h 5 := by
  obtain ⟨s, t, u, g, c, st⟩ := h
  by_cases hz : c = 0 <;> simp_all [trunc, Header.zero]

theorem upd6 (h : Header) :
    (if h.Status = [] then trunc h 5 else { trunc h 5 with Status := h.Status }) = trunc h 6 := by
  obtain ⟨s, t, u, g, c, st⟩ := h
  by_cases hz : st = [] <;> simp_all [trunc, Header.zero]

theorem trunc_six (h : Header) : trunc h 6 = h := rfl

/-- Starting from the k-field truncation, decoding the remaining segments of
Marshal h recovers h. -/
theorem decode_restAt (h : Header) (hval : h.Valid) (k : Nat) :
    unmarshalLoop (trunc h k) (restAt h k) = .ok h := by
  obtain ⟨hSeq, hT1, hT2, hU, hUl, hG1, hG2, hS1, hS2, hSt, hStl⟩ := hval
  have e6 : unmarshalLoop (trunc h 6) (restAt h 6) = .ok h := by
    rw [show restAt h 6 = [] from rfl, unmarshalLoop_nil, trunc_six]
  have e5 : unmarshalLoop (trunc h 5) (restAt h 5) = .ok h := by
    rw [show restAt h 5 = seg6 h ++ [] by simp [restAt]]
    rw [step_seg6 h _ _ hStl, upd6, unmarshalLoop_nil, trunc_six]
  have e4 : unmarshalLoop (trunc h 4) (restAt h 4) = .ok h := by
    rw [show restAt h 4 = seg5 h ++ restAt h 5 from rfl]
    rw [step_seg5 h _ _ hS1 hS2, upd5, e5]
  have e3 : unmarshalLoop (trunc h 3) (restAt h 3) = .ok h := by
    rw [show restAt h 3 = seg4 h ++ restAt h 4 by simp [restAt]]
    rw [step_seg4 h _ _ hG1 hG2, upd4, e4]
  have e2 : unmarshalLoop (trunc h 2) (restAt h 2) = .ok h := by
    rw [show restAt h 2 = seg3 h ++ restAt h 3 by simp [restAt]]
    rw [step_seg3 h _ _ hUl, upd3, e3]
  have e1 : unmarshalLoop (trunc h 1) (restAt h 1) = .ok h := by
    rw [show restAt h 1 = seg2 h ++ restAt h 2 by simp [restAt]]
    rw [step_seg2 h _ _ hT1 hT2, upd2, e2]
  have e0 : unmarshalLoop (trunc h 0) (restAt h 0) = .ok h := by
    rw [show restAt h 0 = seg1 h ++ restAt h 1 by simp [restAt]]
    rw [step_seg1 h _ _ hSeq, upd1, e1]
  rcases k with _ | _ | _ | _ | _ | _ | k
  · exact e0
  · exact e1
  · exact e2
  · exact e3
  · exact e4
  · exact e5
  · rw [show restAt h (k + 6) = [] from rfl, unmarshalLoop_nil,
      show trunc h (k + 6) = h from rfl]

/-- Decoding from the zero Header across the first k segments of Marshal h
reaches the k-field truncation, whatever follows. -/
theorem decode_cutAt (h : Header) (hval : h.Valid) (k : Nat) (X : List Nat) :
    unmarshalLoop Header.zero (cutAt h k ++ X) = unmarshalLoop (trunc h k) X := by
  obtain ⟨hSeq, hT1, hT2, hU, hUl, hG1, hG2, hS1, hS2, hSt, hStl⟩ := hval
  have s1 : ∀ Y, unmarshalLoop Header.zero (seg1 h ++ Y) = unmarshalLoop (trunc h 1) Y := by
    intro Y
    rw [show Header.zero = trunc h 0 from rfl, step_seg1 h _ _ hSeq, upd1]
  have s2 : ∀ Y, unmarshalLoop (trunc h 1) (seg2 h ++ Y) = unmarshalLoop (trunc h 2) Y := by
    intro Y
    rw [step_seg2 h _ _ hT1 hT2, upd2]
  have s3 : ∀ Y, unmarshalLoop (trunc h 2) (seg3 h ++ Y) = unmarshalLoop (trunc h 3) Y := by
    intro Y
    rw [step_seg3 h _ _ hUl, upd3]
  have s4 : ∀ Y, unmarshalLoop (trunc h 3) (seg4 h ++ Y) = unmarshalLoop (trunc h 4) Y := by
    intro Y
    rw [step_seg4 h _ _ hG1 hG2, upd4]
  have s5 : ∀ Y, unmarshalLoop (trunc h 4) (seg5 h ++ Y) = unmarshalLoop (trunc h 5) Y := by
    intro Y
    rw [step_seg5 h _ _ hS1 hS2, upd5]
  have s6 : ∀ Y, unmarshalLoop (trunc h 5) (seg6 h ++ Y) = unmarshalLoop (trunc h 6) Y := by
    intro Y
    rw [step_seg6 h _ _ hStl, upd6]
  rcases k with _ | _ | _ | _ | _ | _ | k
  · rw [show cutAt h 0 = [] from rfl, List.nil_append]
    rfl
  · exact s1 X
  · rw [show cutAt h 2 ++ X = seg1 h ++ (seg2 h ++ X) by simp [cutAt], s1, s2]
  · rw [show cutAt h 3 ++ X = seg1 h ++ (seg2 h ++ (seg3 h ++ X)) by simp [cutAt], s1, s2, s3]
  · rw [show cutAt h 4 ++ X = seg1 h ++ (seg2 h ++ (seg3 h ++ (seg4 h ++ X))) by simp [cutAt],
      s1, s2, s3, s4]
  · rw [show cutAt h 5 ++ X = seg1 h ++ (seg2 h ++ (seg3 h ++ (seg4 h ++ (seg5 h ++ X)))) by
      simp [cutAt], s1, s2, s3, s4, s5]
  · rw [show cutAt h (k + 6) ++ X =
        seg1 h ++ (seg2 h ++ (seg3 h ++ (seg4 h ++ (seg5 h ++ (seg6 h ++ X))))) by
      simp [cutAt], s1, s2, s3, s4, s5, s6]
    rw [show trunc h (k + 6) = trunc h 6 from rfl]

theorem marshal_eq_cutAt_six (h : Header) : Header.Marshal h = cutAt h 6 := rfl

theorem marshal_eq_restAt_zero (h : Header) : Header.Marshal h = restAt h 0 := rfl

/-- C1: For every Header value h (any uint64 sequence, any int32 values for
type/gzip/statusCode including negatives, any byte strings for uri/status),
decoding the bytes produced by encoding h succeeds and yields a Header equal
to h, i.e. Unmarshal(Marshal(h)) == h. -/
theorem C1_roundtrip (h : Header) (hval : h.Valid) :
    Header.Unmarshal Header.zero (Header.Marshal h) = .ok h := by
  rw [Header.Unmarshal, marshal_eq_restAt_zero]
  have hz := decode_restAt h hval 0
  rw [show trunc h 0 = Header.zero from rfl] at hz
  exact hz

/-- A concrete Header exercising a negative int32 field, a uint64 sequence and
two byte strings. -/
def hEx : Header := ⟨70000, -3, [47, 112, 105, 110, 103], 2, 200, [79, 75]⟩

theorem C1_roundtrip_witness :
    Header.Valid hEx ∧ Header.Unmarshal Header.zero (Header.Marshal hEx) = .ok hEx :=
  ⟨by decide, C1_roundtrip hEx (by decide)⟩

/-- C2: Encoding a Header whose six fields are all at their zero/empty values
yields a zero-length byte stream; for every Header, each field holding its
zero/empty value contributes no bytes (its segment of the output is empty);
and decoding a stream from which fields are absent leaves those fields at
their zero value (decoding the first k segments from the zero Header yields
the k-field truncation, whose remaining fields are zero). -/
theorem C2_zero_omission :
    Header.Marshal Header.zero = [] ∧
    (∀ m : Header,
      Header.Marshal m = seg1 m ++ seg2 m ++ seg3 m ++ seg4 m ++ seg5 m ++ seg6 m ∧
      (m.Seq = 0 → seg1 m = []) ∧ (m.Typ = 0 → seg2 m = []) ∧ (m.Uri = [] → seg3 m = []) ∧
      (m.Gzip = 0 → seg4 m = []) ∧ (m.StatusCode = 0 → seg5 m = []) ∧
      (m.Status = [] → seg6 m = [])) ∧
    (∀ h : Header, h.Valid → ∀ k, Header.Unmarshal Header.zero (cutAt h k) = .ok (trunc h k)) := by
  refine ⟨by decide, ?_, ?_⟩
  · intro m
    refine ⟨rfl, ?_, ?_, ?_, ?_, ?_, ?_⟩ <;> intro hz
    · simp [seg1, hz]
    · simp [seg2, hz]
    · simp [seg3, hz]
    · simp [seg4, hz]
    · simp [seg5, hz]
    · simp [seg6, hz]
  · intro h hv k
    rw [Header.Unmarshal, ← List.append_nil (cutAt h k), decode_cutAt h hv k [],
      unmarshalLoop_nil]

/-- A concrete Header with some fields at their zero values. -/
def hvZero : Header := ⟨9, 0, [47], 0, 0, []⟩

theorem C2_zero_omission_witness :
    (hvZero.Gzip = 0 ∧ seg4 hvZero = []) ∧
    (Header.Valid hvZero ∧
      Header.Unmarshal Header.zero (cutAt hvZero 3) = .ok (trunc hvZero 3)) :=
  ⟨⟨by decide, ((C2_zero_omission.2.1 hvZero).2.2.2.2.1) (by decide)⟩,
   ⟨by decide, C2_zero_omission.2.2 hvZero (by decide) 3⟩⟩

theorem readVarintLoop_classify (M : Nat) :
    ∀ (r : Nat) (data : List Nat) (acc : Nat), r ≤ 10 →
      (readVarintLoop M data (7 * (10 - r)) acc = .error .intOverflow ↔
        r ≤ data.length ∧ ∀ i, i < r → 128 ≤ data.getD i 0) ∧
      (readVarintLoop M data (7 * (10 - r)) acc = .error .unexpectedEOF ↔
        data.length < r ∧ ∀ i, i < data.length → 128 ≤ data.getD i 0) ∧
      ((∃ v rest, readVarintLoop M data (7 * (10 - r)) acc = .ok (v, rest)) ↔
        ∃ i, i < r ∧ i < data.length ∧ data.getD i 0 < 128) := by
  intro r
  induction r with
  | zero =>
    intro data acc hr
    have hov : readVarintLoop M data (7 * (10 - 0)) acc = .error .intOverflow := by
      cases data <;> (rw [readVarintLoop]; rw [if_pos (by omega)])
    refine ⟨by simp [hov], by simp [hov], by simp [hov]⟩
  | succ r ih =>
    intro data acc hr
    simp only [show (10 : Nat) - (r + 1) = 9 - r from by omega]
    match data with
    | [] =>
      have heof : readVarintLoop M [] (7 * (9 - r)) acc = .error .unexpectedEOF := by
        rw [readVarintLoop]
        rw [if_neg (by omega)]
      refine ⟨by simp [heof], by simp [heof], by simp [heof]⟩
    | b :: rest =>
      by_cases hb : b < 128
      · have hok : readVarintLoop M (b :: rest) (7 * (9 - r)) acc =
            .ok (acc ||| (((b % 128) <<< (7 * (9 - r))) % M), rest) := by
          rw [readVarintLoop]
          rw [if_neg (by omega)]
          simp only
          rw [if_pos hb]
        refine ⟨?_, ?_, ?_⟩
        · simp only [hok]
          constructor
          · intro hcon
            exact absurd hcon (by simp)
          · rintro ⟨-, hall⟩
            have := hall 0 (by omega)
            simp at this
            omega
        · simp only [hok]
          constructor
          · intro hcon
            exact absurd hcon (by simp)
          · rintro ⟨-, hall⟩
            have := hall 0 (by simp)
            simp at this
            omega
        · simp only [hok]
          constructor
          · intro
            exact ⟨0, by omega, by simp, by simpa⟩
          · intro
            exact ⟨_, _, rfl⟩
      · have hstep : readVarintLoop M (b :: rest) (7 * (9 - r)) acc =
            readVarintLoop M rest (7 * (10 - r))
              (acc ||| (((b % 128) <<< (7 * (9 - r))) % M)) := by
          rw [readVarintLoop]
          rw [if_neg (by omega)]
          simp only
          rw [if_neg hb]
          congr 1
          omega
        obtain ⟨ih1, ih2, ih3⟩ := ih rest (acc ||| (((b % 128) <<< (7 * (9 - r))) % M))
          (by omega)
        refine ⟨?_, ?_, ?_⟩
        · rw [hstep, ih1]
          constructor
          · rintro ⟨hlen, hall⟩
            refine ⟨by simp; omega, ?_⟩
            intro i hi
            match i with
            | 0 => simpa using (by omega : 128 ≤ b)
            | j + 1 => simpa using hall j (by omega)
          · rintro ⟨hlen, hall⟩
            refine ⟨by simp at hlen; omega, ?_⟩
            intro i hi
            simpa using hall (i + 1) (by omega)
        · rw [hstep, ih2]
          constructor
          · rintro ⟨hlen, hall⟩
            refine ⟨by simp; omega, ?_⟩
            intro i hi
            match i with
            | 0 => simpa using (by omega : 128 ≤ b)
            | j + 1 =>
              simp only [List.length_cons] at hi
              simpa using hall j (by omega)
          · rintro ⟨hlen, hall⟩
            refine ⟨by simp at hlen; omega, ?_⟩
            intro i hi
            simpa using hall (i + 1) (by simp; omega)
        · rw [hstep, ih3]
          constructor
          · rintro ⟨i, hi1, hi2, hib⟩
            exact ⟨i + 1, by omega, by simp; omega, by simpa using hib⟩
          · rintro ⟨i, hi1, hi2, hib⟩
            match i with
            | 0 =>
              simp at hib
              omega
            | j + 1 =>
              exact ⟨j, by omega, by simp at hi2; omega, by simpa using hib⟩


/-- C5: Varint decoding during Unmarshal (and skipHeader) fails with the
integer-overflow error exactly when 10 continuation bytes (10 groups of
7 bits, the shift reaching or exceeding 64) are consumed without seeing a
byte with its high bit clear; it fails with unexpected-end-of-input exactly
when the buffer is exhausted mid-sequence; it succeeds exactly when a
terminating byte appears among the first 10; and a terminated varint of at
most 10 bytes (any encoded uint64) never triggers the overflow error.
Both the uint64 and the int32 accumulating loops behave this way. -/
theorem C5_varint_error_classification :
    (∀ data : List Nat,
      (readVarint64 data 0 0 = .error .intOverflow ↔
        10 ≤ data.length ∧ ∀ i, i < 10 → 128 ≤ data.getD i 0) ∧
      (readVarint64 data 0 0 = .error .unexpectedEOF ↔
        data.length < 10 ∧ ∀ i, i < data.length → 128 ≤ data.getD i 0) ∧
      ((∃ v rest, readVarint64 data 0 0 = .ok (v, rest)) ↔
        ∃ i, i < 10 ∧ i < data.length ∧ data.getD i 0 < 128)) ∧
    (∀ data : List Nat,
      (readVarint32 data 0 0 = .error .intOverflow ↔
        10 ≤ data.length ∧ ∀ i, i < 10 → 128 ≤ data.getD i 0) ∧
      (readVarint32 data 0 0 = .error .unexpectedEOF ↔
        data.length < 10 ∧ ∀ i, i < data.length → 128 ≤ data.getD i 0) ∧
      ((∃ v rest, readVarint32 data 0 0 = .ok (v, rest)) ↔
        ∃ i, i < 10 ∧ i < data.length ∧ data.getD i 0 < 128)) ∧
    (∀ (v : Nat) (rest : List Nat), v < 2 ^ 64 →
      readVarint64 (encodeVarintHeader v ++ rest) 0 0 ≠ .error .intOverflow) := by
  have key : ∀ M data acc,
      (readVarintLoop M data 0 acc = .error .intOverflow ↔
        10 ≤ data.length ∧ ∀ i, i < 10 → 128 ≤ data.getD i 0) ∧
      (readVarintLoop M data 0 acc = .error .unexpectedEOF ↔
        data.length < 10 ∧ ∀ i, i < data.length → 128 ≤ data.getD i 0) ∧
      ((∃ v rest, readVarintLoop M data 0 acc = .ok (v, rest)) ↔
        ∃ i, i < 10 ∧ i < data.length ∧ data.getD i 0 < 128) := by
    intro M data acc
    have h := readVarintLoop_classify M 10 data acc (by omega)
    simp only [show 7 * (10 - 10) = 0 from rfl] at h
    obtain ⟨h1, h2, h3⟩ := h
    refine ⟨h1, h2, Iff.trans h3 ?_⟩
    constructor
    · rintro ⟨i, hi, hrest⟩
      exact ⟨i, hi, hrest⟩
    · rintro ⟨i, hi, hrest⟩
      exact ⟨i, hi, hrest⟩
  refine ⟨fun data => key (2 ^ 64) data 0, fun data => key (2 ^ 32) data 0, ?_⟩
  intro v rest hv
  rw [readVarint64_encode v rest hv]
  simp

theorem C5_varint_error_classification_witness :
    ((70000 : Nat) < 2 ^ 64) ∧
      readVarint64 (encodeVarintHeader 70000 ++ []) 0 0 ≠ .error .intOverflow :=
  ⟨by decide, C5_varint_error_classification.2.2 70000 [] (by decide)⟩

/-- C10: When Unmarshal decodes one of the int32-typed fields (Type, Gzip,
StatusCode — tags 0x10, 0x20, 0x28) from a terminated varint of at most 10
bytes (the encoding of any v < 2 ^ 64), it succeeds and stores the int32 read
off the low 32 bits of the decoded value — bit groups shifted to position 32
or higher are silently discarded with no error. -/
theorem C10_int32_truncation (v : Nat) (hv : v < 2 ^ 64) :
    (Header.Unmarshal Header.zero (16 :: encodeVarintHeader v) =
      .ok { Header.zero with Typ := toInt32 (v % 2 ^ 32) }) ∧
    (Header.Unmarshal Header.zero (32 :: encodeVarintHeader v) =
      .ok { Header.zero with Gzip := toInt32 (v % 2 ^ 32) }) ∧
    (Header.Unmarshal Header.zero (40 :: encodeVarintHeader v) =
      .ok { Header.zero with StatusCode := toInt32 (v % 2 ^ 32) }) := by
  refine ⟨?_, ?_, ?_⟩
  · rw [Header.Unmarshal]
    rw [show (16 :: encodeVarintHeader v) = 16 :: (encodeVarintHeader v ++ []) by simp]
    rw [unmarshalLoop]
    rw [readVarint64_single 16 _ (by omega)]
    simp only [toInt32_tag16]
    norm_num
    rw [readVarint32_encode v [] hv]
    show unmarshalLoop { Header.zero with Typ := toInt32 (v % 2 ^ 32) } [] = _
    rw [unmarshalLoop_nil]
    norm_num
  · rw [Header.Unmarshal]
    rw [show (32 :: encodeVarintHeader v) = 32 :: (encodeVarintHeader v ++ []) by simp]
    rw [unmarshalLoop]
    rw [readVarint64_single 32 _ (by omega)]
    simp only [toInt32_tag32]
    norm_num
    rw [readVarint32_encode v [] hv]
    show unmarshalLoop { Header.zero with Gzip := toInt32 (v % 2 ^ 32) } [] = _
    rw [unmarshalLoop_nil]
    norm_num
  · rw [Header.Unmarshal]
    rw [show (40 :: encodeVarintHeader v) = 40 :: (encodeVarintHeader v ++ []) by simp]
    rw [unmarshalLoop]
    rw [readVarint64_single 40 _ (by omega)]
    simp only [toInt32_tag40]
    norm_num
    rw [readVarint32_encode v [] hv]
    show unmarshalLoop { Header.zero with StatusCode := toInt32 (v % 2 ^ 32) } [] = _
    rw [unmarshalLoop_nil]
    norm_num

theorem C10_int32_truncation_witness :
    ((2 ^ 35 + 5 : Nat) < 2 ^ 64) ∧
      Header.Unmarshal Header.zero (16 :: encodeVarintHeader (2 ^ 35 + 5)) =
        .ok { Header.zero with Typ := toInt32 ((2 ^ 35 + 5) % 2 ^ 32) } :=
  ⟨by decide, (C10_int32_truncation (2 ^ 35 + 5) (by decide)).1⟩


theorem appendSplitStrict {p q A B : List Nat} (h : p ++ q = A ++ B) :
    (∃ t, p = A ++ t ∧ t ++ q = B) ∨ (∃ t, t ≠ [] ∧ A = p ++ t ∧ q = t ++ B) := by
  rcases List.append_eq_append_iff.mp h with ⟨t, h1, h2⟩ | ⟨t, h1, h2⟩
  · rcases t with _ | ⟨x, t'⟩
    · left
      exact ⟨[], by simpa using h1.symm, by simpa using h2⟩
    · right
      exact ⟨x :: t', by simp, h1, h2⟩
  · left
    exact ⟨t, h1, h2.symm⟩

/-- A strict proper prefix of a varint encoding consists of continuation
bytes only and has at most 9 of them. -/
theorem varintPre {v : Nat} {p t : List Nat} (hv : v < 2 ^ 64)
    (h : p ++ t = encodeVarintHeader v) (ht : t ≠ []) :
    (∀ b ∈ p, 128 ≤ b) ∧ p.length ≤ 9 := by
  obtain ⟨init, last, henc, hinit, hlast⟩ := encodeVarintHeader_split v
  have hlen : (encodeVarintHeader v).length ≤ 10 :=
    encodeVarintHeader_length_le v 10 (by omega) (lt_of_lt_of_le hv (by norm_num))
  have hlt : 1 ≤ t.length := by
    rcases t with _ | _
    · simp at ht
    · simp
  have he1 : p.length + t.length = init.length + 1 := by
    have e := congrArg List.length h
    simp [henc] at e
    omega
  have hlp : p.length ≤ init.length := by omega
  have hp : p = init.take p.length := by
    have e1 : p = (p ++ t).take p.length := by
      rw [List.take_left]
    rw [h, henc] at e1
    rwa [List.take_append_of_le_length hlp] at e1
  have hl10 : init.length + 1 ≤ 10 := by
    have e := congrArg List.length henc
    simp at e
    omega
  constructor
  · intro b hb
    rw [hp] at hb
    exact hinit b (List.mem_of_mem_take hb)
  · omega

theorem truncSeg1 (h m : Header) {p t : List Nat} (hval : h.Seq < 2 ^ 64)
    (hp : p ≠ []) (ht : t ≠ []) (hsplit : p ++ t = seg1 h) :
    unmarshalLoop m p = .error .unexpectedEOF := by
  by_cases hz : h.Seq = 0
  · have : p ++ t = [] := by simpa [seg1, hz] using hsplit
    simp only [List.append_eq_nil] at this
    exact absurd this.2 ht
  · rw [show seg1 h = 8 :: encodeVarintHeader h.Seq by simp [seg1, hz]] at hsplit
    rcases p with _ | ⟨b, p2⟩
    · exact absurd rfl hp
    · simp only [List.cons_append, List.cons.injEq] at hsplit
      obtain ⟨rfl, hsp⟩ := hsplit
      obtain ⟨hall, hlen⟩ := varintPre hval hsp ht
      rw [unmarshalLoop]
      rw [readVarint64_single 8 _ (by omega)]
      simp only [toInt32_tag8]
      norm_num
      rw [show readVarint64 p2 0 0 = .error .unexpectedEOF from
        readVarintLoop_all_cont hall (by omega)]

theorem truncSeg2 (h m : Header) {p t : List Nat}
    (hp : p ≠ []) (ht : t ≠ []) (hsplit : p ++ t = seg2 h) :
    unmarshalLoop m p = .error .unexpectedEOF := by
  by_cases hz : h.Typ = 0
  · have : p ++ t = [] := by simpa [seg2, hz] using hsplit
    simp only [List.append_eq_nil] at this
    exact absurd this.2 ht
  · rw [show seg2 h = 16 :: encodeVarintHeader (uint64OfInt h.Typ) by simp [seg2, hz]] at hsplit
    rcases p with _ | ⟨b, p2⟩
    · exact absurd rfl hp
    · simp only [List.cons_append, List.cons.injEq] at hsplit
      obtain ⟨rfl, hsp⟩ := hsplit
      obtain ⟨hall, hlen⟩ := varintPre (uint64OfInt_lt h.Typ) hsp ht
      rw [unmarshalLoop]
      rw [readVarint64_single 16 _ (by omega)]
      simp only [toInt32_tag16]
      norm_num
      rw [show readVarint32 p2 0 0 = .error .unexpectedEOF from
        readVarintLoop_all_cont hall (by omega)]

theorem truncSeg3 (h m : Header) {p t : List Nat} (hUl : h.Uri.length < 2 ^ 63)
    (hp : p ≠ []) (ht : t ≠ []) (hsplit : p ++ t = seg3 h) :
    unmarshalLoop m p = .error .unexpectedEOF := by
  by_cases hz : h.Uri.length > 0
  · rw [show seg3 h = 26 :: (encodeVarintHeader h.Uri.length ++ h.Uri) by simp [seg3, hz]]
      at hsplit
    rcases p with _ | ⟨b, p2⟩
    · exact absurd rfl hp
    · simp only [List.cons_append, List.cons.injEq] at hsplit
      obtain ⟨rfl, hsp⟩ := hsplit
      rcases appendSplitStrict hsp with ⟨u, hpu, hub⟩ | ⟨u, hune, hau, hqu⟩
      · subst hpu
        rw [unmarshalLoop]
        rw [readVarint64_single 26 _ (by omega)]
        simp only [toInt32_tag26]
        norm_num
        rw [readVarint64_encode _ _ (by omega)]
        have hul : u.length < h.Uri.length := by
          have := congrArg List.length hub
          simp only [List.length_append] at this
          have h1 : 1 ≤ t.length := by
            rcases t with _ | _
            · exact absurd rfl ht
            · simp
          omega
        have hle : ¬ (9223372036854775808 : Nat) ≤ h.Uri.length := by omega
        simp [hle, hul]
      · symm at hau
        obtain ⟨hall, hlen⟩ := varintPre (by omega) hau hune
        rw [unmarshalLoop]
        rw [readVarint64_single 26 _ (by omega)]
        simp only [toInt32_tag26]
        norm_num
        rw [show readVarint64 p2 0 0 = .error .unexpectedEOF from
          readVarintLoop_all_cont hall (by omega)]
  · have : p ++ t = [] := by simpa [seg3, hz] using hsplit
    simp only [List.append_eq_nil] at this
    exact absurd this.2 ht

theorem truncSeg4 (h m : Header) {p t : List Nat}
    (hp : p ≠ []) (ht : t ≠ []) (hsplit : p ++ t = seg4 h) :
    unmarshalLoop m p = .error .unexpectedEOF := by
  by_cases hz : h.Gzip = 0
  · have : p ++ t = [] := by simpa [seg4, hz] using hsplit
    simp only [List.append_eq_nil] at this
    exact absurd this.2 ht
  · rw [show seg4 h = 32 :: encodeVarintHeader (uint64OfInt h.Gzip) by simp [seg4, hz]] at hsplit
    rcases p with _ | ⟨b, p2⟩
    · exact absurd rfl hp
    · simp only [List.cons_append, List.cons.injEq] at hsplit
      obtain ⟨rfl, hsp⟩ := hsplit
      obtain ⟨hall, hlen⟩ := varintPre (uint64OfInt_lt h.Gzip) hsp ht
      rw [unmarshalLoop]
      rw [readVarint64_single 32 _ (by omega)]
      simp only [toInt32_tag32]
      norm_num
      rw [show readVarint32 p2 0 0 = .error .unexpectedEOF from
        readVarintLoop_all_cont hall (by omega)]

theorem truncSeg5 (h m : Header) {p t : List Nat}
    (hp : p ≠ []) (ht : t ≠ []) (hsplit : p ++ t = seg5 h) :
    unmarshalLoop m p = .error .unexpectedEOF := by
  by_cases hz : h.StatusCode = 0
  · have : p ++ t = [] := by simpa [seg5, hz] using hsplit
    simp only [List.append_eq_nil] at this
    exact absurd this.2 ht
  · rw [show seg5 h = 40 :: encodeVarintHeader (uint64OfInt h.StatusCode) by simp [seg5, hz]]
      at hsplit
    rcases p with _ | ⟨b, p2⟩
    · exact absurd rfl hp
    · simp only [List.cons_append, List.cons.injEq] at hsplit
      obtain ⟨rfl, hsp⟩ := hsplit
      obtain ⟨hall, hlen⟩ := varintPre (uint64OfInt_lt h.StatusCode) hsp ht
      rw [unmarshalLoop]
      rw [readVarint64_single 40 _ (by omega)]
      simp only [toInt32_tag40]
      norm_num
      rw [show readVarint32 p2 0 0 = .error .unexpectedEOF from
        readVarintLoop_all_cont hall (by omega)]

theorem truncSeg6 (h m : Header) {p t : List Nat} (hSl : h.Status.length < 2 ^ 63)
    (hp : p ≠ []) (ht : t ≠ []) (hsplit : p ++ t = seg6 h) :
    unmarshalLoop m p = .error .unexpectedEOF := by
  by_cases hz : h.Status.length > 0
  · rw [show seg6 h = 50 :: (encodeVarintHeader h.Status.length ++ h.Status) by simp [seg6, hz]]
      at hsplit
    rcases p with _ | ⟨b, p2⟩
    · exact absurd rfl hp
    · simp only [List.cons_append, List.cons.injEq] at hsplit
      obtain ⟨rfl, hsp⟩ := hsplit
      rcases appendSplitStrict hsp with ⟨u, hpu, hub⟩ | ⟨u, hune, hau, hqu⟩
      · subst hpu
        rw [unmarshalLoop]
        rw [readVarint64_single 50 _ (by omega)]
        simp only [toInt32_tag50]
        norm_num
        rw [readVarint64_encode _ _ (by omega)]
        have hul : u.length < h.Status.length := by
          have := congrArg List.length hub
          simp only [List.length_append] at this
          have h1 : 1 ≤ t.length := by
            rcases t with _ | _
            · exact absurd rfl ht
            · simp
          omega
        have hle : ¬ (9223372036854775808 : Nat) ≤ h.Status.length := by omega
        simp [hle, hul]
      · symm at hau
        obtain ⟨hall, hlen⟩ := varintPre (by omega) hau hune
        rw [unmarshalLoop]
        rw [readVarint64_single 50 _ (by omega)]
        simp only [toInt32_tag50]
        norm_num
        rw [show readVarint64 p2 0 0 = .error .unexpectedEOF from
          readVarintLoop_all_cont hall (by omega)]
  · have : p ++ t = [] := by simpa [seg6, hz] using hsplit
    simp only [List.append_eq_nil] at this
    exact absurd this.2 ht

/-- The segment of MarshalTo belonging to field j (1..6). -/
def segAt (h : Header) (j : Nat) : List Nat :=
  match j with
  | 1 => seg1 h
  | 2 => seg2 h
  | 3 => seg3 h
  | 4 => seg4 h
  | 5 => seg5 h
  | 6 => seg6 h
  | _ => []

theorem cutAt_succ (h : Header) : ∀ j, j < 6 → cutAt h (j + 1) = cutAt h j ++ segAt h (j + 1) := by
  intro j hj
  interval_cases j <;> simp [cutAt, segAt]

theorem restAt_eq (h : Header) :
    ∀ j, j < 6 → restAt h j = segAt h (j + 1) ++ restAt h (j + 1) := by
  intro j hj
  interval_cases j <;> simp [restAt, segAt]

theorem cutAt_append_restAt (h : Header) :
    ∀ k, cutAt h k ++ restAt h k = Header.Marshal h := by
  intro k
  rcases k with _ | _ | _ | _ | _ | _ | k <;>
    simp [cutAt, restAt, Header.Marshal, Header.MarshalTo, List.append_assoc]

theorem stepAt (h : Header) (hval : h.Valid) :
    ∀ j, j < 6 → ∀ Y, unmarshalLoop (trunc h j) (segAt h (j + 1) ++ Y) =
      unmarshalLoop (trunc h (j + 1)) Y := by
  obtain ⟨hSeq, hT1, hT2, hU, hUl, hG1, hG2, hS1, hS2, hSt, hStl⟩ := hval
  intro j hj Y
  interval_cases j
  · rw [show trunc h 0 = Header.zero from rfl, show segAt h 1 = seg1 h from rfl,
      show Header.zero = trunc h 0 from rfl, step_seg1 h _ _ hSeq, upd1]
  · rw [show segAt h 2 = seg2 h from rfl, step_seg2 h _ _ hT1 hT2, upd2]
  · rw [show segAt h 3 = seg3 h from rfl, step_seg3 h _ _ hUl, upd3]
  · rw [show segAt h 4 = seg4 h from rfl, step_seg4 h _ _ hG1 hG2, upd4]
  · rw [show segAt h 5 = seg5 h from rfl, step_seg5 h _ _ hS1 hS2, upd5]
  · rw [show segAt h 6 = seg6 h from rfl, step_seg6 h _ _ hStl, upd6]

theorem truncSegAt (h : Header) (hval : h.Valid) :
    ∀ j, j < 6 → ∀ (m : Header) (p t : List Nat), p ≠ [] → t ≠ [] →
      p ++ t = segAt h (j + 1) → unmarshalLoop m p = .error .unexpectedEOF := by
  obtain ⟨hSeq, hT1, hT2, hU, hUl, hG1, hG2, hS1, hS2, hSt, hStl⟩ := hval
  intro j hj m p t hp ht hsplit
  interval_cases j
  · exact truncSeg1 h m hSeq hp ht hsplit
  · exact truncSeg2 h m hp ht hsplit
  · exact truncSeg3 h m hUl hp ht hsplit
  · exact truncSeg4 h m hp ht hsplit
  · exact truncSeg5 h m hp ht hsplit
  · exact truncSeg6 h m hStl hp ht hsplit

theorem cutAt_length_mono (h : Header) :
    ∀ k k', k ≤ k' → k' ≤ 6 → (cutAt h k).length ≤ (cutAt h k').length := by
  have hstep : ∀ j, j < 6 → (cutAt h j).length ≤ (cutAt h (j + 1)).length := by
    intro j hj
    rw [cutAt_succ h j hj]
    simp
  intro k k'
  induction k' with
  | zero =>
    intro hk _
    have : k = 0 := by omega
    subst this
    exact le_refl _
  | succ n ih =>
    intro hk hk6
    rcases Nat.lt_or_ge k (n + 1) with hlt | hge
    · exact le_trans (ih (by omega) (by omega)) (hstep n (by omega))
    · have : k = n + 1 := by omega
      subst this
      exact le_refl _

/-- Stage invariant for truncation safety: having consumed the first i whole
segments, decoding the rest of a strict prefix either stops at a later field
boundary with the corresponding truncation, or fails with unexpected EOF and
the prefix is at no field boundary. -/
theorem C3_stage (h : Header) (hval : h.Valid) :
    ∀ n i, i + n = 6 → ∀ p q, p ++ q = restAt h i → q ≠ [] →
      (∃ k, i ≤ k ∧ k ≤ 6 ∧ cutAt h i ++ p = cutAt h k ∧
        unmarshalLoop (trunc h i) p = .ok (trunc h k)) ∨
      ((∀ k, k ≤ 6 → cutAt h i ++ p ≠ cutAt h k) ∧
        unmarshalLoop (trunc h i) p = .error .unexpectedEOF) := by
  intro n
  induction n with
  | zero =>
    intro i hi p q hsplit hq
    have hi6 : i = 6 := by omega
    subst hi6
    rw [show restAt h 6 = [] from rfl] at hsplit
    have := List.append_eq_nil.mp hsplit
    exact absurd this.2 hq
  | succ n ih =>
    intro i hi p q hsplit hq
    have hilt : i < 6 := by omega
    rw [restAt_eq h i hilt] at hsplit
    rcases appendSplitStrict hsplit with ⟨t, rfl, ht⟩ | ⟨t, htne, hseg, hqe⟩
    · rcases ih (i + 1) (by omega) t q ht hq with ⟨k, hk1, hk2, hcut, hdec⟩ | ⟨hall, hdec⟩
      · left
        refine ⟨k, by omega, hk2, ?_, ?_⟩
        · rw [← List.append_assoc, ← cutAt_succ h i hilt]
          exact hcut
        · rw [stepAt h hval i hilt t]
          exact hdec
      · right
        constructor
        · intro k hk6
          rw [← List.append_assoc, ← cutAt_succ h i hilt]
          exact hall k hk6
        · rw [stepAt h hval i hilt t]
          exact hdec
    · by_cases hpe : p = []
      · subst hpe
        left
        exact ⟨i, le_refl i, by omega, by simp, unmarshalLoop_nil _⟩
      · right
        have hp1 : 1 ≤ p.length := by
          rcases p with _ | _
          · exact absurd rfl hpe
          · simp
        have ht1 : 1 ≤ t.length := by
          rcases t with _ | _
          · exact absurd rfl htne
          · simp
        have hlenp : p.length < (segAt h (i + 1)).length := by
          have := congrArg List.length hseg
          simp only [List.length_append] at this
          omega
        constructor
        · intro k hk6 heq
          have hlen_eq := congrArg List.length heq
          simp only [List.length_append] at hlen_eq
          rcases le_or_lt k i with hki | hik
          · have := cutAt_length_mono h k i hki (by omega)
            omega
          · have h1 := cutAt_length_mono h (i + 1) k hik hk6
            have h2 : (cutAt h (i + 1)).length =
                (cutAt h i).length + (segAt h (i + 1)).length := by
              rw [cutAt_succ h i hilt]
              simp
            omega
        · exact truncSegAt h hval i hilt (trunc h i) p t hpe htne hseg.symm

/-- C3: For every valid Header h and every strict prefix p of Marshal h,
decoding p either succeeds — exactly when the cut falls on a field boundary —
yielding h with the fields past the cut left at zero (the truncation), or
fails with the unexpected-end-of-input error; a truncated encoding never
decodes successfully to anything but such a truncation. -/
theorem C3_truncation_safety (h : Header) (hval : h.Valid) (p q : List Nat)
    (hsplit : p ++ q = Header.Marshal h) (hq : q ≠ []) :
    (∃ k, k ≤ 6 ∧ p = cutAt h k ∧ Header.Unmarshal Header.zero p = .ok (trunc h k)) ∨
    ((∀ k, k ≤ 6 → p ≠ cutAt h k) ∧
      Header.Unmarshal Header.zero p = .error .unexpectedEOF) := by
  rw [marshal_eq_restAt_zero] at hsplit
  have hs := C3_stage h hval 6 0 rfl p q hsplit hq
  rcases hs with ⟨k, hk0, hk6, hcut, hdec⟩ | ⟨hall, hdec⟩
  · left
    refine ⟨k, hk6, ?_, ?_⟩
    · simpa using hcut
    · rw [Header.Unmarshal, show Header.zero = trunc h 0 from rfl]
      simpa using hdec
  · right
    constructor
    · intro k hk6 hp
      exact hall k hk6 (by simpa using hp)
    · rw [Header.Unmarshal, show Header.zero = trunc h 0 from rfl]
      exact hdec

theorem C3_truncation_safety_witness :
    (Header.Valid hEx ∧ cutAt hEx 3 ++ restAt hEx 3 = Header.Marshal hEx ∧
      restAt hEx 3 ≠ []) ∧
    ((∃ k, k ≤ 6 ∧ cutAt hEx 3 = cutAt hEx k ∧
        Header.Unmarshal Header.zero (cutAt hEx 3) = .ok (trunc hEx k)) ∨
      ((∀ k, k ≤ 6 → cutAt hEx 3 ≠ cutAt hEx k) ∧
        Header.Unmarshal Header.zero (cutAt hEx 3) = .error .unexpectedEOF)) :=
  ⟨⟨by decide, cutAt_append_restAt hEx 3, by simp [restAt, seg4, hEx]⟩,
    C3_truncation_safety hEx (by decide) (cutAt hEx 3) (restAt hEx 3)
      (cutAt_append_restAt hEx 3) (by simp [restAt, seg4, hEx])⟩

mutual

/-- A value for one extra (unknown-number) field, one constructor per
supported wire type: 0 varint, 1 eight-byte fixed, 2 length-prefixed bytes,
3 group (with nested fields), 5 four-byte fixed. -/
inductive ExtraVal where
  | varint (v : Nat)
  | fixed64 (bs : List Nat)
  | bytes (bs : List Nat)
  | group (inner : ExtraSeq)
  | fixed32 (bs : List Nat)

/-- A sequence of numbered extra fields (the contents of a group). -/
inductive ExtraSeq where
  | nil
  | cons (f : Nat) (v : ExtraVal) (rest : ExtraSeq)

end

/-- The wire type of an extra-field value. -/
def wireTypeOf : ExtraVal → Nat
  | .varint _ => 0
  | .fixed64 _ => 1
  | .bytes _ => 2
  | .group _ => 3
  | .fixed32 _ => 5

mutual

/-- Well-formedness of an extra-field value: payload sizes match the wire
type, varints fit in 64 bits, length-prefixed payloads fit in a Go int. -/
def ExtraVal.WF : ExtraVal → Prop
  | .varint v => v < 2 ^ 64
  | .fixed64 bs => bs.length = 8 ∧ ∀ b ∈ bs, b < 256
  | .bytes bs => bs.length < 2 ^ 63 ∧ ∀ b ∈ bs, b < 256
  | .group g => g.WF
  | .fixed32 bs => bs.length = 4 ∧ ∀ b ∈ bs, b < 256

/-- Well-formedness of a field sequence: protobuf-legal field numbers and
well-formed values. -/
def ExtraSeq.WF : ExtraSeq → Prop
  | .nil => True
  | .cons f v rest => 1 ≤ f ∧ f < 2 ^ 29 ∧ v.WF ∧ rest.WF

end

mutual

/-- The payload bytes of an extra field (after its tag); a group payload is
its nested fields followed by an end-group tag with the same field number. -/
def encPayload (f : Nat) : ExtraVal → List Nat
  | .varint v => encodeVarintHeader v
  | .fixed64 bs => bs
  | .bytes bs => encodeVarintHeader bs.length ++ bs
  | .group g => encSeq g ++ encodeVarintHeader (8 * f + 4)
  | .fixed32 bs => bs

/-- One whole extra field: tag varint (fieldNumber << 3 | wireType) followed
by the payload. -/
def encField (f : Nat) (v : ExtraVal) : List Nat :=
  encodeVarintHeader (8 * f + wireTypeOf v) ++ encPayload f v

/-- The bytes of a sequence of extra fields. -/
def encSeq : ExtraSeq → List Nat
  | .nil => []
  | .cons f v rest => encField f v ++ encSeq rest

end

theorem wireTypeOf_cases (v : ExtraVal) :
    wireTypeOf v = 0 ∨ wireTypeOf v = 1 ∨ wireTypeOf v = 2 ∨ wireTypeOf v = 3 ∨
      wireTypeOf v = 5 := by
  cases v <;> simp [wireTypeOf]

theorem encField_ne_nil (f : Nat) (v : ExtraVal) : encField f v ≠ [] := by
  rw [encField]
  intro hcon
  exact encodeVarintHeader_ne_nil _ (List.append_eq_nil.mp hcon).1

theorem skip_tag_ne_nil (f : Nat) (v : ExtraVal) (rest : List Nat) :
    ((encField f v ++ rest).isEmpty = true) = False := by
  simp only [List.isEmpty_eq_true, List.append_eq_nil, eq_iff_iff, iff_false]
  intro hcon
  exact encField_ne_nil f v hcon.1

theorem skip_encField_varint (f v' : Nat) (rest : List Nat) (hv : v' < 2 ^ 64)
    (hf2 : f < 2 ^ 29) :
    skipHeader (encField f (.varint v') ++ rest) = .ok (encField f (.varint v')).length := by
  rw [show encField f (.varint v') ++ rest =
      encodeVarintHeader (8 * f + 0) ++ (encodeVarintHeader v' ++ rest) by
    simp [encField, encPayload, wireTypeOf, List.append_assoc]]
  rw [skipHeader]
  rw [if_neg (by
    simp only [List.isEmpty_eq_true, List.append_eq_nil]
    intro hcon
    exact encodeVarintHeader_ne_nil _ hcon.1)]
  rw [readVarint64_encode _ _ (by omega)]
  simp only [show (8 * f + 0) % 8 = 0 from by omega]
  norm_num
  rw [readVarint64_encode v' rest hv]
  simp [encField, encPayload, wireTypeOf]
  omega

theorem skip_encField_fixed64 (f : Nat) (bs : List Nat) (rest : List Nat)
    (hbs : bs.length = 8) (hf2 : f < 2 ^ 29) :
    skipHeader (encField f (.fixed64 bs) ++ rest) = .ok (encField f (.fixed64 bs)).length := by
  rw [show encField f (.fixed64 bs) ++ rest =
      encodeVarintHeader (8 * f + 1) ++ (bs ++ rest) by
    simp [encField, encPayload, wireTypeOf, List.append_assoc]]
  rw [skipHeader]
  rw [if_neg (by
    simp only [List.isEmpty_eq_true, List.append_eq_nil]
    intro hcon
    exact encodeVarintHeader_ne_nil _ hcon.1)]
  rw [readVarint64_encode _ _ (by omega)]
  simp only [show (8 * f + 1) % 8 = 1 from by omega]
  norm_num
  simp [encField, encPayload, wireTypeOf]
  omega

theorem skip_encField_bytes (f : Nat) (bs : List Nat) (rest : List Nat)
    (hbs : bs.length < 2 ^ 63) (hf2 : f < 2 ^ 29) :
    skipHeader (encField f (.bytes bs) ++ rest) = .ok (encField f (.bytes bs)).length := by
  rw [show encField f (.bytes bs) ++ rest =
      encodeVarintHeader (8 * f + 2) ++ (encodeVarintHeader bs.length ++ (bs ++ rest)) by
    simp [encField, encPayload, wireTypeOf, List.append_assoc]]
  rw [skipHeader]
  rw [if_neg (by
    simp only [List.isEmpty_eq_true, List.append_eq_nil]
    intro hcon
    exact encodeVarintHeader_ne_nil _ hcon.1)]
  rw [readVarint64_encode _ _ (by omega)]
  simp only [show (8 * f + 2) % 8 = 2 from by omega]
  norm_num
  rw [readVarint64_encode _ _ (by omega)]
  norm_num
  rw [if_neg (by omega)]
  simp [encField, encPayload, wireTypeOf]
  omega

theorem skip_encField_fixed32 (f : Nat) (bs : List Nat) (rest : List Nat)
    (hbs : bs.length = 4) (hf2 : f < 2 ^ 29) :
    skipHeader (encField f (.fixed32 bs) ++ rest) = .ok (encField f (.fixed32 bs)).length := by
  rw [show encField f (.fixed32 bs) ++ rest =
      encodeVarintHeader (8 * f + 5) ++ (bs ++ rest) by
    simp [encField, encPayload, wireTypeOf, List.append_assoc]]
  rw [skipHeader]
  rw [if_neg (by
    simp only [List.isEmpty_eq_true, List.append_eq_nil]
    intro hcon
    exact encodeVarintHeader_ne_nil _ hcon.1)]
  rw [readVarint64_encode _ _ (by omega)]
  simp only [show (8 * f + 5) % 8 = 5 from by omega]
  norm_num
  simp [encField, encPayload, wireTypeOf]
  omega

/-- skipHeader consumes exactly one well-formed extra field, and skipGroup
consumes well-formed group content up to and including its end tag; proved by
induction on the size of the (possibly nested) value. -/
theorem skip_extra_core (N : Nat) :
    (∀ (f : Nat) (v : ExtraVal) (rest : List Nat), sizeOf v < N → v.WF → 1 ≤ f →
      f < 2 ^ 29 → skipHeader (encField f v ++ rest) = .ok (encField f v).length) ∧
    (∀ (g : ExtraSeq) (fend : Nat) (rest : List Nat), sizeOf g < N → g.WF → fend < 2 ^ 29 →
      skipGroup (encSeq g ++ (encodeVarintHeader (8 * fend + 4) ++ rest)) =
        .ok (encSeq g ++ encodeVarintHeader (8 * fend + 4)).length) := by
  induction N with
  | zero =>
    constructor
    · intro f v rest hsz
      omega
    · intro g fend rest hsz
      omega
  | succ N ih =>
    obtain ⟨ihF, ihG⟩ := ih
    constructor
    · intro f v rest hsz hwf hf1 hf2
      cases v with
      | varint v' =>
        have hw : v' < 2 ^ 64 := hwf
        exact skip_encField_varint f v' rest hw hf2
      | fixed64 bs =>
        have hw : bs.length = 8 ∧ ∀ b ∈ bs, b < 256 := hwf
        exact skip_encField_fixed64 f bs rest hw.1 hf2
      | bytes bs =>
        have hw : bs.length < 2 ^ 63 ∧ ∀ b ∈ bs, b < 256 := hwf
        exact skip_encField_bytes f bs rest hw.1 hf2
      | fixed32 bs =>
        have hw : bs.length = 4 ∧ ∀ b ∈ bs, b < 256 := hwf
        exact skip_encField_fixed32 f bs rest hw.1 hf2
      | group g =>
        have hwg : g.WF := hwf
        have hszg : sizeOf g < N := by
          have hs : sizeOf (ExtraVal.group g) = 1 + sizeOf g := by simp
          omega
        rw [show encField f (.group g) ++ rest = encodeVarintHeader (8 * f + 3) ++
            (encSeq g ++ (encodeVarintHeader (8 * f + 4) ++ rest)) by
          simp [encField, encPayload, wireTypeOf, List.append_assoc]]
        rw [skipHeader]
        rw [if_neg (by
          simp only [List.isEmpty_eq_true, List.append_eq_nil]
          intro hcon
          exact encodeVarintHeader_ne_nil _ hcon.1)]
        rw [readVarint64_encode _ _ (by omega)]
        simp only [show (8 * f + 3) % 8 = 3 from by omega]
        norm_num
        rw [ihG g f rest hszg hwg hf2]
        simp [encField, encPayload, wireTypeOf]
    · intro g fend rest hsz hwf hfend
      cases g with
      | nil =>
        rw [show encSeq ExtraSeq.nil ++ (encodeVarintHeader (8 * fend + 4) ++ rest) =
            encodeVarintHeader (8 * fend + 4) ++ rest by rw [encSeq]; simp]
        rw [skipGroup]
        rw [readVarint64_encode _ _ (by omega)]
        simp only [show (8 * fend + 4) % 8 = 4 from by omega]
        norm_num
        rw [encSeq]
      | cons f2 v2 g2 =>
        have hw : 1 ≤ f2 ∧ f2 < 2 ^ 29 ∧ v2.WF ∧ g2.WF := hwf
        have hsz2 : sizeOf v2 < N ∧ sizeOf g2 < N := by
          have hs : sizeOf (ExtraSeq.cons f2 v2 g2) = 1 + sizeOf f2 + sizeOf v2 + sizeOf g2 := by
            simp
          omega
        have hwt58 : wireTypeOf v2 ≤ 5 := by
          rcases wireTypeOf_cases v2 with h | h | h | h | h <;> omega
        have htag : readVarint64 (encSeq (ExtraSeq.cons f2 v2 g2) ++
              (encodeVarintHeader (8 * fend + 4) ++ rest)) 0 0 =
            .ok (8 * f2 + wireTypeOf v2, encPayload f2 v2 ++
              (encSeq g2 ++ (encodeVarintHeader (8 * fend + 4) ++ rest))) := by
          rw [show encSeq (ExtraSeq.cons f2 v2 g2) ++ (encodeVarintHeader (8 * fend + 4) ++
                rest) = encodeVarintHeader (8 * f2 + wireTypeOf v2) ++ (encPayload f2 v2 ++
                (encSeq g2 ++ (encodeVarintHeader (8 * fend + 4) ++ rest))) by
            simp [encSeq, encField, List.append_assoc]]
          exact readVarint64_encode _ _ (by omega)
        have hskip : skipHeader (encField f2 v2 ++ (encSeq g2 ++
              (encodeVarintHeader (8 * fend + 4) ++ rest))) =
            .ok (encField f2 v2).length :=
          ihF f2 v2 _ hsz2.1 hw.2.2.1 hw.1 hw.2.1
        have hne4 : ¬ ((8 * f2 + wireTypeOf v2) % 8 = 4) := by
          rcases wireTypeOf_cases v2 with h | h | h | h | h <;> omega
        rw [skipGroup]
        rw [show encSeq (ExtraSeq.cons f2 v2 g2) ++ (encodeVarintHeader (8 * fend + 4) ++
              rest) = encField f2 v2 ++ (encSeq g2 ++ (encodeVarintHeader (8 * fend + 4) ++
              rest)) by simp [encSeq, List.append_assoc]] at htag ⊢
        rw [htag]
        norm_num [hne4]
        rw [hskip]
        norm_num [show ¬ ((encField f2 v2).length = 0) from
          fun hcon => encField_ne_nil f2 v2 (List.length_eq_zero.mp hcon)]
        rw [ihG g2 fend rest hsz2.2 hw.2.2.2 hfend]
        simp [encSeq]
        omega

theorem skipHeader_encField (f : Nat) (v : ExtraVal) (rest : List Nat) (hwf : v.WF)
    (hf1 : 1 ≤ f) (hf2 : f < 2 ^ 29) :
    skipHeader (encField f v ++ rest) = .ok (encField f v).length :=
  (skip_extra_core (sizeOf v + 1)).1 f v rest (by omega) hwf hf1 hf2

/-- Unmarshal routes a well-formed field with an unrecognized field number
(7 or above) through skipHeader and continues unchanged after it. -/
theorem unmarshal_skips_extra (m : Header) (f : Nat) (v : ExtraVal) (rest : List Nat)
    (hwf : v.WF) (hf1 : 7 ≤ f) (hf2 : f < 2 ^ 29) :
    unmarshalLoop m (encField f v ++ rest) = unmarshalLoop m rest := by
  have hne : encField f v ++ rest ≠ [] := fun hc =>
    encField_ne_nil f v (List.append_eq_nil.mp hc).1
  have hwt : wireTypeOf v ≤ 5 := by
    rcases wireTypeOf_cases v with hh | hh | hh | hh | hh <;> omega
  have htag : readVarint64 (encField f v ++ rest) 0 0 =
      .ok (8 * f + wireTypeOf v, encPayload f v ++ rest) := by
    rw [show encField f v ++ rest =
        encodeVarintHeader (8 * f + wireTypeOf v) ++ (encPayload f v ++ rest) by
      simp [encField, List.append_assoc]]
    exact readVarint64_encode _ _ (by omega)
  have hskip := skipHeader_encField f v rest hwf (by omega) hf2
  have hfn : toInt32 ((8 * f + wireTypeOf v) >>> 3 % 2 ^ 32) = (f : Int) := by
    have h1 : (8 * f + wireTypeOf v) >>> 3 = f := by
      rw [Nat.shiftRight_eq_div_pow]
      rw [show (2 : Nat) ^ 3 = 8 from by norm_num]
      omega
    rw [h1, Nat.mod_eq_of_lt (by omega), toInt32_small (by omega)]
  have hne4 : ¬ ((8 * f + wireTypeOf v) % 8 = 4) := by
    rcases wireTypeOf_cases v with hh | hh | hh | hh | hh <;> omega
  rcases hcons : encField f v ++ rest with _ | ⟨b, l⟩
  · exact absurd hcons hne
  · rw [hcons] at htag hskip
    have hlen : (b :: l).length = (encField f v).length + rest.length := by
      rw [← hcons]
      simp
    have hfn2 : toInt32 ((8 * f + wireTypeOf v) >>> 3 % 4294967296) = (f : Int) := by
      simpa using hfn
    rw [unmarshalLoop]
    rw [htag]
    norm_num [hne4, hfn2, show ¬ ((f : Int) ≤ 0) from by omega,
      show (f : Int) ≠ 1 from by omega, show (f : Int) ≠ 2 from by omega,
      show (f : Int) ≠ 3 from by omega, show (f : Int) ≠ 4 from by omega,
      show (f : Int) ≠ 5 from by omega, show (f : Int) ≠ 6 from by omega]
    simp only [List.length_cons] at hlen
    split
    · rename_i e he
      rw [hskip] at he
      exact absurd he (by simp)
    · rename_i skippy hsk
      rw [hskip] at hsk
      simp only [Except.ok.injEq] at hsk
      subst hsk
      rw [if_neg (by omega)]
      rw [← hcons, List.drop_left]

/-- C4: For every valid encoding of a Header, inserting at any field boundary
(including the end) one extra well-formed field whose field number is outside
1..6 — with any supported wire type (0, 1, 2, 3 or 5) — yields bytes that
Unmarshal still decodes successfully, recovering exactly the original six
field values and ignoring the extra field. -/
theorem C4_unknown_field_tolerance (h : Header) (hval : h.Valid) (k : Nat)
    (f : Nat) (v : ExtraVal) (hwf : v.WF) (hf1 : 7 ≤ f) (hf2 : f < 2 ^ 29) :
    Header.Unmarshal Header.zero (cutAt h k ++ (encField f v ++ restAt h k)) = .ok h := by
  rw [Header.Unmarshal, decode_cutAt h hval k _]
  rw [unmarshal_skips_extra _ f v _ hwf hf1 hf2]
  exact decode_restAt h hval k

theorem C4_unknown_field_tolerance_witness :
    (Header.Valid hEx ∧ ExtraVal.WF (.varint 999) ∧ 7 ≤ 11 ∧ 11 < 2 ^ 29) ∧
      Header.Unmarshal Header.zero
        (cutAt hEx 2 ++ (encField 11 (.varint 999) ++ restAt hEx 2)) = .ok hEx :=
  ⟨⟨by decide, by rw [ExtraVal.WF]; decide, by decide, by decide⟩,
    C4_unknown_field_tolerance hEx (by decide) 2 11 (.varint 999)
      (by rw [ExtraVal.WF]; decide) (by decide) (by decide)⟩

/-- Modelled from the spec: the codec package is not under src; spec 4.4
describes a registry entry as a name with a numeric id, with byName lookup
failing with CodecNotFound when the name is absent. -/
structure Codec where
  name : String
  id : Nat
deriving DecidableEq, Repr

/-- Modelled from the spec: the CodecNotFound error kind (spec 4.4, 7). -/
inductive CodecErr where
  | codecNotFound
deriving DecidableEq, Repr

/-- Modelled from the spec: the reserved "nil/unset" codec id (spec 4.4:
"a reserved id (e.g., 0) denotes unset"); codec.NilCodecId in the source. -/
def NilCodecId : Nat := 0

/-- Modelled from the spec: codec.GetByName resolves a registered codec by
name and fails with CodecNotFound if absent (spec 4.4). -/
def GetByName (reg : List Codec) (codecName : String) : Except CodecErr Codec :=
  match reg.find? (fun c => c.name == codecName) with
  | some c => .ok c
  | none => .error .codecNotFound

/-- Source: type Packet struct.  Pointers become indices into a store;
the opaque interface body is modelled as an optional value; the bodyGetting
resolver is an optional function of the Header. -/
structure Packet where
  HeaderCodec : Nat
  BodyCodec : Nat
  Header : Header
  Body : Option Nat
  HeaderLength : Int
  BodyLength : Int
  Length : Int
  bodyGetting : Option (Teleport.Header → Option Nat)
  next : Option Nat

/-- Source: type PacketSetting func(*Packet), modelled functionally. -/
def PacketSetting : Type := Packet → Packet

/-- Applying a settings list in order (the for-range loops in NewPacket and
Reset). -/
def applySettings (p : Packet) (settings : List PacketSetting) : Packet :=
  settings.foldl (fun q f => f q) p

/-- Source: func NewPacket — fresh packet with zero Header, nil body, nil
codec ids, then the settings applied. -/
def NewPacket (bodyGetting : Option (Teleport.Header → Option Nat))
    (settings : List PacketSetting) : Packet :=
  applySettings
    { HeaderCodec := NilCodecId, BodyCodec := NilCodecId, Header := Header.zero,
      Body := none, HeaderLength := 0, BodyLength := 0, Length := 0,
      bodyGetting := bodyGetting, next := none } settings

/-- Source: func (p *Packet) Reset — clears every field (Header reset in
place, body dropped, codec ids back to nil) and then applies the settings. -/
def Packet.Reset (p : Packet) (bodyGetting : Option (Teleport.Header → Option Nat))
    (settings : List PacketSetting) : Packet :=
  applySettings
    { p with
        next := none
        bodyGetting := bodyGetting
        Header := Header.Reset p.Header
        Body := none
        HeaderLength := 0
        BodyLength := 0
        Length := 0
        HeaderCodec := NilCodecId
        BodyCodec := NilCodecId } settings

/-- Source: func (p *Packet) ResetBodyGetting. -/
def Packet.ResetBodyGetting (p : Packet)
    (bodyGetting : Option (Teleport.Header → Option Nat)) : Packet :=
  { p with bodyGetting := bodyGetting }

/-- Source: func (p *Packet) loadBody — if a resolver is set, invoke it on
the current Header and cache the result in Body; otherwise set Body to nil.
Returns the updated packet and the returned body value. -/
def Packet.loadBody (p : Packet) : Packet × Option Nat :=
  match p.bodyGetting with
  | some f => ({ p with Body := f p.Header }, f p.Header)
  | none => ({ p with Body := none }, none)

/-- A panic outcome for functions that can call panic(err). -/
inductive PanicOr (α : Type) where
  | panicked
  | ok (a : α)

/-- Source: func getCodecByName — looks the codec up by name and panics on
the CodecNotFound error instead of returning it. -/
def getCodecByName (reg : List Codec) (codecName : String) : PanicOr Codec :=
  match GetByName reg codecName with
  | .error _ => .panicked
  | .ok c => .ok c

/-- Source: func (p *Packet) SetHeaderCodecByName — stores the id of the
codec resolved through getCodecByName (so it panics on unknown names). -/
def Packet.SetHeaderCodecByName (reg : List Codec) (p : Packet) (codecName : String) :
    PanicOr Packet :=
  match getCodecByName reg codecName with
  | .panicked => .panicked
  | .ok c => .ok { p with HeaderCodec := c.id }

/-- Source: func (p *Packet) SetBodyCodecByName. -/
def Packet.SetBodyCodecByName (reg : List Codec) (p : Packet) (codecName : String) :
    PanicOr Packet :=
  match getCodecByName reg codecName with
  | .panicked => .panicked
  | .ok c => .ok { p with BodyCodec := c.id }

/-- Source: func WithBodyGzip — a setting writing the gzip level into the
packet Header. -/
def WithBodyGzip (gzipLevel : Int) : PacketSetting :=
  fun p => { p with Header := { p.Header with Gzip := gzipLevel } }

/-- The default packet used by getD on out-of-range indices. -/
def dummyPacket : Packet := NewPacket none []

/-- The mutable world of the pool: every packet ever allocated (indices are
packet identities) and packetStack.freePacket as the head index of the free
list threaded through the next fields. -/
structure World where
  store : List Packet
  freePacket : Option Nat

/-- The initial, empty pool world. -/
def World.empty : World := ⟨[], none⟩

/-- Source: func GetPacket — under the lock, takes the head of the free list
if any (resetting it with the bodyGetting and the settings), or allocates a
new packet; on the fresh-allocation path the source calls
NewPacket(bodyGetting) without forwarding the settings (packet.go line 41).
Returns the new world and the index (identity) of the packet handed out. -/
def GetPacket (w : World) (bodyGetting : Option (Teleport.Header → Option Nat))
    (settings : List PacketSetting) : World × Nat :=
  match w.freePacket with
  | none =>
    ({ store := w.store ++ [NewPacket bodyGetting []], freePacket := none }, w.store.length)
  | some i =>
    let p := w.store.getD i dummyPacket
    ({ store := w.store.set i (Packet.Reset p bodyGetting settings),
       freePacket := p.next }, i)

/-- Source: func PutPacket — under the lock, clears Body and pushes the
packet onto the free list. -/
def PutPacket (w : World) (i : Nat) : World :=
  let p := w.store.getD i dummyPacket
  { store := w.store.set i { p with Body := none, next := w.freePacket },
    freePacket := some i }

/-- One client operation against the pool. -/
inductive PoolOp where
  | get (bodyGetting : Option (Teleport.Header → Option Nat)) (settings : List PacketSetting)
  | put (i : Nat)

/-- One step of a client trace: a get hands out an index (prepended to the
live list), a put releases a held index. -/
def poolStep (s : World × List Nat) (op : PoolOp) : World × List Nat :=
  match op with
  | .get bg st =>
    let r := GetPacket s.1 bg st
    (r.1, r.2 :: s.2)
  | .put i => (PutPacket s.1 i, s.2.erase i)

/-- Running a trace from the empty world with no live packets. -/
def runPool (ops : List PoolOp) : World × List Nat :=
  ops.foldl poolStep (World.empty, [])

/-- A trace is legal when every put releases an index that is live (held and
not yet released) at that point. -/
def LegalFrom : World × List Nat → List PoolOp → Prop
  | _, [] => True
  | s, op :: rest =>
    (match op with
     | .put i => i ∈ s.2
     | _ => True) ∧ LegalFrom (poolStep s op) rest

/-- Legality of a trace from the initial state. -/
def Legal (ops : List PoolOp) : Prop := LegalFrom (World.empty, []) ops

/-- The free list reachable from a head index by following next fields. -/
inductive Chain (store : List Packet) : Option Nat → List Nat → Prop where
  | nil : Chain store none []
  | cons {i : Nat} {t : List Nat} : i < store.length →
      Chain store (store.getD i dummyPacket).next t → Chain store (some i) (i :: t)

/-- The pool invariant: the free list is well formed, live and free indices
are pairwise distinct and in range, and every free packet has a nil Body. -/
def PoolInv (s : World × List Nat) : Prop :=
  ∃ fl, Chain s.1.store s.1.freePacket fl ∧ (s.2 ++ fl).Nodup ∧
    (∀ i ∈ s.2 ++ fl, i < s.1.store.length) ∧
    (∀ i ∈ fl, (s.1.store.getD i dummyPacket).Body = none)

/-- getD after set at the written index. -/
theorem getD_set_self (l : List Packet) (i : Nat) (q : Packet) (h : i < l.length) :
    (l.set i q).getD i dummyPacket = q := by
  simp [List.getD, List.getElem?_set_self, h]

/-- getD after set at a different index. -/
theorem getD_set_ne (l : List Packet) (i j : Nat) (q : Packet) (h : i ≠ j) :
    (l.set i q).getD j dummyPacket = l.getD j dummyPacket := by
  simp [List.getD, List.getElem?_set_ne, h]

/-- getD at the end of an appended singleton. -/
theorem getD_concat_length (l : List Packet) (q : Packet) :
    (l ++ [q]).getD l.length dummyPacket = q := by
  simp [List.getD, List.getElem?_concat_length]

/-- A free list hanging off a nil head is empty. -/
theorem chain_nil_inv {store : List Packet} {fl : List Nat}
    (h : Chain store none fl) : fl = [] := by
  cases h; rfl

/-- Unfolding a free list hanging off a non-nil head. -/
theorem chain_some_inv {store : List Packet} {i : Nat} {fl : List Nat}
    (h : Chain store (some i) fl) :
    ∃ t, fl = i :: t ∧ i < store.length ∧
      Chain store (store.getD i dummyPacket).next t := by
  cases h with
  | cons hlen htail => exact ⟨_, rfl, hlen, htail⟩

/-- Overwriting a slot outside the free list leaves the free list intact. -/
theorem chain_set {store : List Packet} {hd : Option Nat} {fl : List Nat}
    (hc : Chain store hd fl) (i : Nat) (q : Packet) (hni : i ∉ fl) :
    Chain (store.set i q) hd fl := by
  induction hc with
  | nil => exact .nil
  | cons hlen htail ih =>
    rename_i j t
    have hij : i ≠ j := fun he => hni (he ▸ List.mem_cons_self _ _)
    refine .cons (by simpa [List.length_set] using hlen) ?_
    rw [getD_set_ne _ _ _ _ hij]
    exact ih (fun hm => hni (List.mem_cons_of_mem _ hm))

/-- Appending a fresh slot at the end leaves the free list intact. -/
theorem chain_append {store : List Packet} {hd : Option Nat} {fl : List Nat}
    (hc : Chain store hd fl) (q : Packet) : Chain (store ++ [q]) hd fl := by
  induction hc with
  | nil => exact .nil
  | cons hlen htail ih =>
    rename_i j t
    refine .cons (by simp; omega) ?_
    rw [show (store ++ [q]).getD j dummyPacket = store.getD j dummyPacket by
      simp [List.getD, List.getElem?_append_left, hlen]]
    exact ih

/-- GetPacket preserves the pool invariant, prepending the handed-out index
to the live list. -/
theorem get_inv (w : World) (live : List Nat)
    (bg : Option (Teleport.Header → Option Nat)) (st : List PacketSetting)
    (hinv : PoolInv (w, live)) :
    PoolInv ((GetPacket w bg st).1, (GetPacket w bg st).2 :: live) := by
  obtain ⟨fl, hch, hnd, hrange, hbody⟩ := hinv
  have hch : Chain w.store w.freePacket fl := hch
  have hnd : (live ++ fl).Nodup := hnd
  have hrange : ∀ j ∈ live ++ fl, j < w.store.length := hrange
  have hbody : ∀ j ∈ fl, (w.store.getD j dummyPacket).Body = none := hbody
  cases hfp : w.freePacket with
  | none =>
    have hfl : fl = [] := chain_nil_inv (hfp ▸ hch)
    subst hfl
    have hg : GetPacket w bg st =
        (⟨w.store ++ [NewPacket bg []], none⟩, w.store.length) := by
      simp [GetPacket, hfp]
    rw [hg]
    refine ⟨[], .nil, ?_, ?_, by simp⟩
    · simp only [List.append_nil] at hnd ⊢
      refine List.nodup_cons.mpr ⟨?_, hnd⟩
      intro hm
      exact absurd (hrange _ (by simpa using hm)) (by omega)
    · intro j hj
      simp only [List.append_nil, List.mem_cons] at hj
      simp only [List.length_append, List.length_singleton]
      rcases hj with hj | hj
      · omega
      · have := hrange j (by simpa using hj)
        omega
  | some i =>
    obtain ⟨t, hfl, hlen, htail⟩ := chain_some_inv (hfp ▸ hch)
    subst hfl
    have hg : GetPacket w bg st =
        (⟨w.store.set i
            (Packet.Reset (w.store.getD i dummyPacket) bg st),
          (w.store.getD i dummyPacket).next⟩, i) := by
      simp [GetPacket, hfp]
    rw [hg]
    have hnint : i ∉ t := (List.nodup_cons.mp hnd.of_append_right).1
    refine ⟨t, chain_set htail i _ hnint, ?_, ?_, ?_⟩
    · have hperm : List.Perm (live ++ i :: t) (i :: (live ++ t)) :=
        List.perm_middle
      have : (i :: (live ++ t)).Nodup := hperm.nodup hnd
      simpa using this
    · intro j hj
      simp only [List.length_set]
      simp only [List.cons_append, List.mem_cons, List.mem_append] at hj
      rcases hj with hj | hj | hj
      · omega
      · exact hrange j (List.mem_append_left _ hj)
      · exact hrange j (List.mem_append_right _ (List.mem_cons_of_mem _ hj))
    · intro j hj
      have hij : i ≠ j := fun he => hnint (he ▸ hj)
      rw [getD_set_ne _ _ _ _ hij]
      exact hbody j (List.mem_cons_of_mem _ hj)

/-- PutPacket preserves the pool invariant when the released index is live,
removing it from the live list. -/
theorem put_inv (w : World) (live : List Nat) (i : Nat) (hmem : i ∈ live)
    (hinv : PoolInv (w, live)) : PoolInv (PutPacket w i, live.erase i) := by
  obtain ⟨fl, hch, hnd, hrange, hbody⟩ := hinv
  have hch : Chain w.store w.freePacket fl := hch
  have hnd : (live ++ fl).Nodup := hnd
  have hrange : ∀ j ∈ live ++ fl, j < w.store.length := hrange
  have hbody : ∀ j ∈ fl, (w.store.getD j dummyPacket).Body = none := hbody
  have hilen : i < w.store.length := hrange i (List.mem_append_left _ hmem)
  have hinfl : i ∉ fl := fun hm => (List.disjoint_of_nodup_append hnd) hmem hm
  refine ⟨i :: fl, ?_, ?_, ?_, ?_⟩
  · refine .cons (by simpa [PutPacket, List.length_set] using hilen) ?_
    show Chain _ ((List.set _ _ _).getD i dummyPacket).next fl
    rw [getD_set_self _ _ _ hilen]
    exact chain_set hch i _ hinfl
  · have h1 : List.Perm (live ++ fl) ((i :: live.erase i) ++ fl) :=
      (List.perm_cons_erase hmem).append_right fl
    have h2 : List.Perm ((i :: live.erase i) ++ fl) (live.erase i ++ i :: fl) := by
      simp only [List.cons_append]
      exact List.perm_middle.symm
    exact ((h1.trans h2).nodup hnd)
  · intro j hj
    simp only [PutPacket, List.length_set]
    simp only [List.mem_append, List.mem_cons] at hj
    rcases hj with hj | hj | hj
    · exact hrange j (List.mem_append_left _ (List.mem_of_mem_erase hj))
    · omega
    · exact hrange j (List.mem_append_right _ hj)
  · intro j hj
    simp only [List.mem_cons] at hj
    rcases hj with hj | hj
    · subst hj
      show ((List.set _ _ _).getD j dummyPacket).Body = none
      rw [getD_set_self _ _ _ hilen]
    · have hij : i ≠ j := fun he => hinfl (he ▸ hj)
      show ((List.set _ _ _).getD j dummyPacket).Body = none
      rw [getD_set_ne _ _ _ _ hij]
      exact hbody j hj

/-- One legal pool step preserves the pool invariant. -/
theorem poolStep_inv (s : World × List Nat) (op : PoolOp)
    (hleg : ∀ i, op = .put i → i ∈ s.2)
    (hinv : PoolInv s) : PoolInv (poolStep s op) := by
  obtain ⟨w, live⟩ := s
  cases op with
  | get bg st => exact get_inv w live bg st hinv
  | put i => exact put_inv w live i (hleg i rfl) hinv

/-- The initial pool state satisfies the invariant. -/
theorem poolInv_init : PoolInv (World.empty, []) :=
  ⟨[], .nil, List.nodup_nil, by simp, by simp⟩

/-- A legal trace run from an invariant state ends in an invariant state. -/
theorem poolInv_foldl (ops : List PoolOp) : ∀ s : World × List Nat,
    LegalFrom s ops → PoolInv s → PoolInv (ops.foldl poolStep s) := by
  induction ops with
  | nil => exact fun s _ h => h
  | cons op rest ih =>
    intro s hleg hinv
    match op with
    | .get bg st =>
      have hleg' : True ∧ LegalFrom (poolStep s (.get bg st)) rest := hleg
      exact ih _ hleg'.2 (poolStep_inv s _ (fun i he => nomatch he) hinv)
    | .put i =>
      have hleg' : i ∈ s.2 ∧ LegalFrom (poolStep s (.put i)) rest := hleg
      refine ih _ hleg'.2 (poolStep_inv s _ (fun j he => ?_) hinv)
      injection he with h
      subst h
      exact hleg'.1

/-- C7: pool correctness.  (a) Along every legal trace of GetPacket/PutPacket
calls (each release hits a live packet), the indices of simultaneously-live
packets handed out by GetPacket are pairwise distinct — no two live packets
are the same instance.  (b) After PutPacket the released packet's Body is
nil.  (c) Every packet handed out by GetPacket (before any settings are
applied) has an all-zero Header, nil Body, and both codec ids at the
reserved nil id. -/
theorem C7_pool_correctness :
    (∀ ops : List PoolOp, Legal ops → (runPool ops).2.Nodup) ∧
    (∀ (w : World) (i : Nat),
      ((PutPacket w i).store.getD i dummyPacket).Body = none) ∧
    (∀ (w : World) (bg : Option (Teleport.Header → Option Nat)),
      ((GetPacket w bg []).1.store.getD (GetPacket w bg []).2
          dummyPacket).Header = Header.zero ∧
      ((GetPacket w bg []).1.store.getD (GetPacket w bg []).2
          dummyPacket).Body = none ∧
      ((GetPacket w bg []).1.store.getD (GetPacket w bg []).2
          dummyPacket).HeaderCodec = NilCodecId ∧
      ((GetPacket w bg []).1.store.getD (GetPacket w bg []).2
          dummyPacket).BodyCodec = NilCodecId) := by
  refine ⟨?_, ?_, ?_⟩
  · intro ops hleg
    obtain ⟨fl, _, hnd, _, _⟩ := poolInv_foldl ops (World.empty, []) hleg poolInv_init
    have hnd : ((runPool ops).2 ++ fl).Nodup := hnd
    exact hnd.of_append_left
  · intro w i
    by_cases hlt : i < w.store.length
    · show ((List.set _ _ _).getD i dummyPacket).Body = none
      rw [getD_set_self _ _ _ hlt]
    · show ((List.set _ _ _).getD i dummyPacket).Body = none
      rw [List.set_eq_of_length_le (by omega)]
      rw [List.getD_eq_default _ _ (by omega)]
      rfl
  · intro w bg
    cases hfp : w.freePacket with
    | none =>
      have hg : GetPacket w bg [] =
          (⟨w.store ++ [NewPacket bg []], none⟩, w.store.length) := by
        simp [GetPacket, hfp]
      rw [hg]
      show ((_ ++ [_]).getD w.store.length dummyPacket).Header = _ ∧ _
      rw [getD_concat_length]
      exact ⟨rfl, rfl, rfl, rfl⟩
    | some i =>
      have hg : GetPacket w bg [] =
          (⟨w.store.set i
              (Packet.Reset (w.store.getD i dummyPacket) bg []),
            (w.store.getD i dummyPacket).next⟩, i) := by
        simp [GetPacket, hfp]
      rw [hg]
      by_cases hlt : i < w.store.length
      · show ((List.set _ _ _).getD i dummyPacket).Header = _ ∧ _
        rw [getD_set_self _ _ _ hlt]
        exact ⟨rfl, rfl, rfl, rfl⟩
      · show ((List.set _ _ _).getD i dummyPacket).Header = _ ∧ _
        rw [List.set_eq_of_length_le (by omega)]
        rw [List.getD_eq_default _ _ (by omega)]
        exact ⟨rfl, rfl, rfl, rfl⟩

/-- Witness for C7 at the concrete trace of two acquisitions from the empty
pool: the trace is legal and the two live indices are distinct. -/
theorem C7_pool_correctness_witness :
    Legal [PoolOp.get none [], PoolOp.get none []] ∧
    (runPool [PoolOp.get none [], PoolOp.get none []]).2.Nodup :=
  ⟨⟨trivial, trivial, trivial⟩,
    C7_pool_correctness.1 [PoolOp.get none [], PoolOp.get none []]
      ⟨trivial, trivial, trivial⟩⟩

/-- C6 counterexample: with an empty codec registry, both by-name codec
setters escalate the failed lookup to a fatal (panicking) outcome instead of
returning a recoverable error, refuting the claim as stated. -/
theorem C6_counterexample :
    Packet.SetHeaderCodecByName [] dummyPacket "json" = .panicked ∧
    Packet.SetBodyCodecByName [] dummyPacket "json" = .panicked :=
  ⟨rfl, rfl⟩

/-- C6 (corrected): when the name is not registered, SetHeaderCodecByName and
SetBodyCodecByName PANIC (getCodecByName turns the CodecNotFound error into a
panic) rather than returning the error; when the lookup succeeds they return
normally with the resolved id stored. -/
theorem C6_codec_by_name (reg : List Codec) (p : Packet) (codecName : String) :
    (GetByName reg codecName = .error .codecNotFound →
      Packet.SetHeaderCodecByName reg p codecName = .panicked ∧
      Packet.SetBodyCodecByName reg p codecName = .panicked) ∧
    (∀ c, GetByName reg codecName = .ok c →
      Packet.SetHeaderCodecByName reg p codecName =
        .ok { p with HeaderCodec := c.id } ∧
      Packet.SetBodyCodecByName reg p codecName =
        .ok { p with BodyCodec := c.id }) := by
  constructor
  · intro h
    constructor <;>
      simp [Packet.SetHeaderCodecByName, Packet.SetBodyCodecByName,
        getCodecByName, h]
  · intro c h
    constructor <;>
      simp [Packet.SetHeaderCodecByName, Packet.SetBodyCodecByName,
        getCodecByName, h]

/-- A one-entry codec registry holding a codec named json with id 1. -/
def reg0 : List Codec := [⟨"json", 1⟩]

/-- Witness for C6 at the registry reg0: the unregistered name xml makes
both setters panic, and the registered name json stores id 1. -/
theorem C6_codec_by_name_witness :
    (GetByName reg0 "xml" = .error .codecNotFound ∧
     Packet.SetHeaderCodecByName reg0 dummyPacket "xml" = .panicked ∧
     Packet.SetBodyCodecByName reg0 dummyPacket "xml" = .panicked) ∧
    (GetByName reg0 "json" = .ok ⟨"json", 1⟩ ∧
     Packet.SetHeaderCodecByName reg0 dummyPacket "json" =
       .ok { dummyPacket with HeaderCodec := 1 } ∧
     Packet.SetBodyCodecByName reg0 dummyPacket "json" =
       .ok { dummyPacket with BodyCodec := 1 }) :=
  ⟨⟨rfl, ((C6_codec_by_name reg0 dummyPacket "xml").1 rfl).1,
      ((C6_codec_by_name reg0 dummyPacket "xml").1 rfl).2⟩,
   ⟨rfl, ((C6_codec_by_name reg0 dummyPacket "json").2 ⟨"json", 1⟩ rfl).1,
      ((C6_codec_by_name reg0 dummyPacket "json").2 ⟨"json", 1⟩ rfl).2⟩⟩

/-- The world after acquiring one packet from the empty pool and releasing
it: its free list holds index 0, so the next GetPacket recycles. -/
def worldOne : World :=
  PutPacket (GetPacket World.empty none []).1 (GetPacket World.empty none []).2

/-- C8: the code drops the settings on the fresh-allocation path.  Acquiring
with the setting WithBodyGzip 5 from the empty pool (fresh allocation, source
calls NewPacket(bodyGetting) without the settings) leaves Header.Gzip at 0,
while the same acquisition from a pool with a recycled packet (Reset applies
the settings) sets Header.Gzip to 5 — the two paths disagree, refuting the
claim that settings are applied on both. -/
theorem C8_settings_dropped_on_fresh_path :
    ((GetPacket World.empty none [WithBodyGzip 5]).1.store.getD
        (GetPacket World.empty none [WithBodyGzip 5]).2
        dummyPacket).Header.Gzip = 0 ∧
    ((GetPacket worldOne none [WithBodyGzip 5]).1.store.getD
        (GetPacket worldOne none [WithBodyGzip 5]).2
        dummyPacket).Header.Gzip = 5 :=
  ⟨rfl, rfl⟩

/-- A packet with a directly-assigned Body and no body resolver. -/
def pBody : Packet := { dummyPacket with Body := some 7 }

/-- C9 counterexample: a packet with Body directly set to some 7 and no
resolver; loadBody does NOT leave Body as previously assigned — it clears it
to none, refuting the claim as stated. -/
theorem C9_counterexample :
    pBody.Body = some 7 ∧ pBody.bodyGetting = none ∧
    (Packet.loadBody pBody).1.Body = none ∧
    (Packet.loadBody pBody).2 = none :=
  ⟨rfl, rfl, rfl, rfl⟩

/-- C9 (corrected): when a resolver is set, loadBody invokes it on the
packet's current Header, caches the result into Body and returns it, leaving
the Header unchanged; when no resolver is set, loadBody RESETS Body to nil
(rather than leaving a previously assigned body in place) and returns nil. -/
theorem C9_loadBody (p : Packet) :
    (∀ f, p.bodyGetting = some f →
      (Packet.loadBody p).1.Body = f p.Header ∧
      (Packet.loadBody p).2 = f p.Header ∧
      (Packet.loadBody p).1.Header = p.Header) ∧
    (p.bodyGetting = none →
      (Packet.loadBody p).1.Body = none ∧
      (Packet.loadBody p).2 = none ∧
      (Packet.loadBody p).1.Header = p.Header) := by
  constructor
  · intro f h
    simp [Packet.loadBody, h]
  · intro h
    simp [Packet.loadBody, h]

/-- A packet whose resolver returns the Header's sequence number. -/
def pRes : Packet :=
  { dummyPacket with bodyGetting := some (fun h => some h.Seq) }

/-- Witness for C9 at a packet with a concrete resolver and at pBody, which
has no resolver. -/
theorem C9_loadBody_witness :
    (pRes.bodyGetting = some (fun h => some h.Seq) ∧
     (Packet.loadBody pRes).1.Body = some pRes.Header.Seq ∧
     (Packet.loadBody pRes).2 = some pRes.Header.Seq) ∧
    (pBody.bodyGetting = none ∧
     (Packet.loadBody pBody).1.Body = none ∧
     (Packet.loadBody pBody).2 = none) :=
  ⟨⟨rfl, ((C9_loadBody pRes).1 (fun h => some h.Seq) rfl).1,
      ((C9_loadBody pRes).1 (fun h => some h.Seq) rfl).2.1⟩,
   ⟨rfl, ((C9_loadBody pBody).2 rfl).1, ((C9_loadBody pBody).2 rfl).2.1⟩⟩

end Teleport

